import Mathlib

/-!
Verification development for a CRYSTALS-Dilithium style signature scheme.

The development shallowly embeds the repository's Python modules:
  - `ring.py`: the polynomial ring Zq[X]/(X^N + 1) (`Polynomial` with
    `init`, `add`, `sub`, `mul`);
  - `hash.py`: deterministic seed expansion and matrix generation
    (`expand_seed`, `generate_matrix_from_seed`), parametrised by the
    SHAKE128 extendable-output function, which the code consumes as a
    black box; here it is an explicit argument `xof : List Nat → Nat → Nat`
    mapping an input byte string and a stream position to the output byte;
  - `dilithium.py`: the `OptimizedDilithium` class (`keygen`, `sign`,
    `verify`), with the instance's mutable attributes made an explicit
    `DilithiumState` and the `functools.lru_cache` wrapper on
    `get_matrix_A` modelled by the `lruA` field.

Nondeterministic randomness (`secrets.token_bytes`) is passed in as
explicit seed arguments.  Python integers are `Int`, byte strings are
`List Nat`.  Fallible Python code (indexing errors, `np.concatenate` on
an empty list, `raise`) is embedded with `Except PyErr`.
-/

set_option maxRecDepth 8192

namespace Dilithium

/-- Degree bound of the ring, `Polynomial.N` in `ring.py`. -/
def N : Nat := 256

/-- The modulus `q = 2^23 - 2^13 + 1`, `Polynomial.Q` in `ring.py`. -/
def Q : Int := 8380417

/-- Dropped-bits parameter `D = 13` from `dilithium.py`. -/
def Dparam : Nat := 13

/-- `GAMMA1 = Q // 4` from `dilithium.py`. -/
def GAMMA1 : Int := Q / 4

/-- `GAMMA2 = Q // 8` from `dilithium.py`. -/
def GAMMA2 : Int := Q / 8

/-- `TAU = 60` from `dilithium.py`. -/
def TAU : Nat := 60

/-- `BETA = Q // 32` from `dilithium.py`. -/
def BETA : Int := Q / 32

/-- `DOMAIN_MATRIX = 0x01` from `hash.py`. -/
def DOMAIN_MATRIX : Nat := 1

/-- `DOMAIN_CHALLENGE = 0x02` from `hash.py`. -/
def DOMAIN_CHALLENGE : Nat := 2

/-- `DOMAIN_SMALL_POLY = 0x03` from `dilithium.py`. -/
def DOMAIN_SMALL_POLY : Nat := 3

/-- `DOMAIN_Y_POLY = 0x05` from `dilithium.py`. -/
def DOMAIN_Y_POLY : Nat := 5

/-- A polynomial of the ring: the `coefficients` attribute of the Python
`Polynomial` class, a list of integers.  Every value the code builds goes
through `Polynomial.init`, which normalises to length `N` with entries in
`[0, Q)`. -/
structure Polynomial where
  coefficients : List Int
deriving DecidableEq, Repr

namespace Polynomial

/-- `Polynomial.__init__` with `coefficients=None`: the zero polynomial. -/
def zero : Polynomial := ⟨List.replicate N 0⟩

/-- `Polynomial.__init__` with a coefficient list: truncate to the first
`N` entries, reduce each modulo `Q` (Python `%`, hence a value in
`[0, Q)`), and pad with zeros to length `N`. -/
def init (cs : List Int) : Polynomial :=
  let r := (cs.take N).map (fun c => c % Q)
  ⟨r ++ List.replicate (N - r.length) 0⟩

/-- Read coefficient `d` (0 outside the list), for stating properties. -/
def coeff (p : Polynomial) (d : Nat) : Int := p.coefficients.getD d 0

/-- `Polynomial.__add__`: coefficient-wise addition modulo `Q` (the Python
list comprehension `zip`s the two coefficient lists). -/
def add (a b : Polynomial) : Polynomial :=
  init ((a.coefficients.zip b.coefficients).map (fun x => (x.1 + x.2) % Q))

/-- `Polynomial.__sub__`: coefficient-wise subtraction modulo `Q`. -/
def sub (a b : Polynomial) : Polynomial :=
  init ((a.coefficients.zip b.coefficients).map (fun x => (x.1 - x.2) % Q))

/-- One update of the result accumulator inside `Polynomial.__mul__`'s
double loop: at indices `(i, j)`, add `(±a_i·b_j) % Q` into position
`(i+j) mod N`, the sign flipped when `i + j ≥ N` (reduction by
`X^N = -1`). -/
def mulStep (a b : Polynomial) (result : List Int) (ij : Nat × Nat) : List Int :=
  let i := ij.1
  let j := ij.2
  let deg := i + j
  if N ≤ deg then
    let deg := deg - N
    let coeff := (-(a.coefficients.getD i 0) * b.coefficients.getD j 0) % Q
    result.set deg ((result.getD deg 0 + coeff) % Q)
  else
    let coeff := (a.coefficients.getD i 0 * b.coefficients.getD j 0) % Q
    result.set deg ((result.getD deg 0 + coeff) % Q)

/-- `Polynomial.__mul__`: the nested `for i in range(N): for j in range(N)`
loop over a result list initialised to `[0]*N`, followed by
`Polynomial(result)`. -/
def mul (a b : Polynomial) : Polynomial :=
  init ((List.range N).foldl
    (fun result i =>
      (List.range N).foldl (fun result j => mulStep a b result (i, j)) result)
    (List.replicate N 0))

/-- The centered representative of a stored coefficient: the claim texts
speak of signed coefficient values, while the code stores values in
`[0, Q)`. -/
def centered (c : Int) : Int := if 2 * c < Q then c else c - Q

end Polynomial

/-- An extendable-output function (SHAKE128 in the code, consumed as a black
box): an input byte string and a stream position give the output byte. -/
def Xof : Type := List Nat → Nat → Nat

/-- `expand_seed` from `hash.py`: read `length` bytes of the XOF stream for
`seed + bytes([domain])`. -/
def expand_seed (xof : Xof) (seed : List Nat) (domain : Nat) (length : Nat) :
    List Nat :=
  (List.range length).map (xof (seed ++ [domain]))

/-- Group a byte list into 32-bit little-endian unsigned integers, as
`np.frombuffer(randomness, dtype=np.uint32)` and the
`int.from_bytes(data[idx:idx+4], "little")` loop do.  A trailing fragment
of fewer than 4 bytes is dropped (the code always passes a multiple of 4). -/
def bytesToU32 : List Nat → List Nat
  | b0 :: b1 :: b2 :: b3 :: rest =>
      (b0 + 256 * b1 + 65536 * b2 + 16777216 * b3) :: bytesToU32 rest
  | _ => []

/-- `generate_matrix_from_seed` from `hash.py`: the `k × l` matrix whose
entry `(i, j)` is the polynomial with coefficients `u % Q` for the 32-bit
words `u` read from the XOF stream of `seed + bytes([i, j, DOMAIN_MATRIX])`. -/
def generate_matrix_from_seed (xof : Xof) (seed : List Nat) (k l : Nat) :
    List (List Polynomial) :=
  (List.range k).map (fun i =>
    (List.range l).map (fun j =>
      let data := (List.range (N * 4)).map (xof (seed ++ [i, j, DOMAIN_MATRIX]))
      Polynomial.init ((bytesToU32 data).map (fun u => (u : Int) % Q))))

/-- The fixed-width public-key encoding of spec section 6: `rho` raw,
then each polynomial of `t` as `N` little-endian 4-byte unsigned integers
holding the canonical `[0, q)` coefficient. -/
def encodePoly (p : Polynomial) : List Nat :=
  p.coefficients.flatMap (fun c =>
    let n := c.toNat
    [n % 256, n / 256 % 256, n / 65536 % 256, n / 16777216 % 256])

/-- Encoding of a vector of polynomials: concatenation in index order. -/
def encodeVec (v : List Polynomial) : List Nat := (v.map encodePoly).flatten

/-- Swap the entries at positions `i` and `j` of a list (Python's
`xs[i], xs[j] = xs[j], xs[i]`). -/
def swapL (l : List Nat) (i j : Nat) : List Nat :=
  let a := l.getD i 0
  let b := l.getD j 0
  (l.set i b).set j a

/-- Modelled from the spec: the sparse-ternary sampler of section 4.3.
The repository's `generate_challenge` is imported by `dilithium.py` from
the hash module but is not present in the source files, so it is modelled
from the spec's words: "select exactly τ distinct positions in [0,N)
without repetition (e.g., by a Fisher–Yates-style draw consuming fresh
expander bytes per swap) and assign each a sign bit (±1); all other
coefficients are 0."  Byte `t` of the stream drives swap `t` of the
Fisher–Yates draw, whose result list this definition is; bytes
`TAU + i` give the sign of the `i`-th selected position (see
`sparseTernary`). -/
def shuffleFY (stream : Nat → Nat) : List Nat :=
  (List.range TAU).foldl
    (fun positions t => swapL positions t (t + stream t % (N - t)))
    (List.range N)

/-- The `TAU` distinct positions the draw selects. -/
def chosenFY (stream : Nat → Nat) : List Nat := (shuffleFY stream).take TAU

/-- Modelled from the spec: the challenge polynomial drawn by the
sparse-ternary sampler; the sign byte decides `+1` or `-1` at each of
the `TAU` selected positions, all other coefficients are 0. -/
def sparseTernary (stream : Nat → Nat) : Polynomial :=
  Polynomial.init ((List.range N).map (fun d =>
    if d ∈ chosenFY stream then
      (if stream (TAU + (chosenFY stream).indexOf d) % 2 = 0 then 1 else -1)
    else 0))

/-- Modelled from the spec: `generate_challenge`, imported by
`dilithium.py` from the hash module but absent from the source files.
Spec sections 3 and 4.5: the challenge seed material is "the byte string
formed from message, public key encoding, and the high-bits commitment,
fed to Expander under a distinct domain tag", and the challenge is the
sparse-ternary sample drawn from that stream. -/
def generate_challenge (xof : Xof) (message : List Nat)
    (public_key : List Nat × List Polynomial) (w1 : List Polynomial) :
    Polynomial :=
  let seed := message ++ (public_key.1 ++ encodeVec public_key.2) ++ encodeVec w1
  sparseTernary (xof (seed ++ [DOMAIN_CHALLENGE]))

/-- The Python errors the embedded code can raise. -/
inductive PyErr where
  | valueError
  | indexError
  | runtimeError
deriving DecidableEq, Repr

/-- `np.concatenate` over a list of coefficient arrays: flattens, but
raises `ValueError` when the list is empty. -/
def npConcatenate (ls : List (List Int)) : Except PyErr (List Int) :=
  if ls.isEmpty then .error .valueError else .ok ls.flatten

/-- The mutable attributes of an `OptimizedDilithium` instance.  `lruA`
models the `functools.lru_cache(maxsize=1)` wrapper on `get_matrix_A`:
once the wrapped method has returned for this instance, the decorator
replays that return value without running the body again. -/
structure DilithiumState where
  k : Nat
  l : Nat
  eta : Int
  rho : Option (List Nat)
  t : Option (List Polynomial)
  s1 : Option (List Polynomial)
  s2 : Option (List Polynomial)
  Acache : Option (List (List Polynomial))
  lruA : Option (List (List Polynomial))

/-- `OptimizedDilithium.__init__`: validate the security level and load
`(k, l, eta)` from the `PARAMS` table. -/
def dilithiumInit (security_level : Nat) : Except PyErr DilithiumState :=
  if security_level = 2 then
    .ok ⟨4, 4, 2, none, none, none, none, none, none⟩
  else if security_level = 3 then
    .ok ⟨6, 5, 4, none, none, none, none, none, none⟩
  else if security_level = 5 then
    .ok ⟨8, 7, 2, none, none, none, none, none, none⟩
  else .error .valueError

/-- `OptimizedDilithium.get_matrix_A`: behind the `lru_cache` wrapper, the
body raises when `rho` is unset, fills `_A_cache` on demand and returns
it; the wrapper then caches the returned matrix for good. -/
def get_matrix_A (xof : Xof) (st : DilithiumState) :
    Except PyErr (List (List Polynomial) × DilithiumState) :=
  match st.lruA with
  | some A => .ok (A, st)
  | none =>
    match st.rho with
    | none => .error .valueError
    | some rho =>
      let A := match st.Acache with
        | some A => A
        | none => generate_matrix_from_seed xof rho st.k st.l
      .ok (A, { st with Acache := some A, lruA := some A })

/-- `OptimizedDilithium._matrix_multiply`: for each row, sum `a * v` over
`zip(row, vector)` starting from the zero polynomial. -/
def matrix_multiply (matrix : List (List Polynomial)) (vector : List Polynomial) :
    List Polynomial :=
  matrix.map (fun row =>
    (row.zip vector).foldl (fun sum_poly av => sum_poly.add (av.1.mul av.2))
      Polynomial.zero)

/-- `OptimizedDilithium._high_bits`: `(coeffs + GAMMA2) >> D` on every
coefficient (an arithmetic shift, i.e. floor division by `2^D`), then
`Polynomial(...)`. -/
def high_bits (p : Polynomial) : Polynomial :=
  Polynomial.init (p.coefficients.map (fun c => (c + GAMMA2).fdiv (2 ^ Dparam)))

/-- `OptimizedDilithium._generate_vector`: expand a fresh 32-byte seed
(here an explicit argument) under `domain` to `size * N` 32-bit words,
map each word `u` to `u % (2*bound+1) - bound`, reshape into `size` rows
of `N` coefficients and build one polynomial per row. -/
def generate_vector (xof : Xof) (seed : List Nat) (size : Nat) (bound : Int)
    (domain : Nat) : List Polynomial :=
  let total_coeffs := size * N
  let randomness := expand_seed xof seed domain (total_coeffs * 4)
  let coeffs := (bytesToU32 randomness).map
    (fun (u : Nat) => (u : Int) % (2 * bound + 1) - bound)
  (List.range size).map (fun i =>
    Polynomial.init ((coeffs.drop (i * N)).take N))

/-- `OptimizedDilithium.generate_y_vector`. -/
def generate_y_vector (xof : Xof) (seed : List Nat) (st : DilithiumState) :
    List Polynomial :=
  generate_vector xof seed st.l GAMMA1 DOMAIN_Y_POLY

/-- `OptimizedDilithium.generate_small_vector`. -/
def generate_small_vector (xof : Xof) (seed : List Nat) (st : DilithiumState)
    (size : Nat) : List Polynomial :=
  generate_vector xof seed size st.eta DOMAIN_SMALL_POLY

/-- `OptimizedDilithium.keygen`: store a fresh `rho`, clear `_A_cache`,
fetch the matrix through the cached `get_matrix_A`, draw `s1` and `s2`
from fresh seeds, and set `t = A·s1 + s2` (row-wise addition loop).
Returns `((rho, t), (s1, s2))` and the instance state after the call. -/
def keygen (xof : Xof) (st : DilithiumState) (rhoNew seed1 seed2 : List Nat) :
    Except PyErr
      (((List Nat × List Polynomial) × (List Polynomial × List Polynomial)) ×
        DilithiumState) :=
  let st1 := { st with rho := some rhoNew, Acache := none }
  match get_matrix_A xof st1 with
  | .error e => .error e
  | .ok (A, st2) =>
    let s1 := generate_small_vector xof seed1 st2 st2.l
    let s2 := generate_small_vector xof seed2 st2 st2.k
    let t0 := matrix_multiply A s1
    let t := (List.range st2.k).map (fun i => (t0.getD i Polynomial.zero).add
      (s2.getD i Polynomial.zero))
    .ok (((rhoNew, t), (s1, s2)),
      { st2 with t := some t, s1 := some s1, s2 := some s2 })

/-- A signature as `sign` returns it: the pair `(z, c)`. -/
def Sig : Type := List Polynomial × Polynomial

/-- Python truthiness of an optional byte string or list attribute, as
`all([self.rho, self.t, self.s1, self.s2])` evaluates it: set and
non-empty. -/
def truthy {α : Type} (o : Option (List α)) : Bool :=
  match o with
  | some l => !l.isEmpty
  | none => false

/-- The `z` loop of `sign`: `for i in range(l): z.append(y[i] + c * s1[i])`.
`y` has exactly `l` entries, so the loop is recursion on `y`; `s1[i]`
raises `IndexError` when `s1` runs out first. -/
def z_loop (c : Polynomial) : List Polynomial → List Polynomial →
    Except PyErr (List Polynomial)
  | [], _ => .ok []
  | yi :: ys, si :: ss =>
    match z_loop c ys ss with
    | .ok r => .ok ((yi.add (c.mul si)) :: r)
    | .error e => .error e
  | _ :: _, [] => .error .indexError

/-- One iteration of `sign`'s rejection loop: draw `y`, compute
`w = A·y`, its high bits `w1`, check the (very loose) `w1` bound, derive
the challenge, compute `z = y + c·s1`, check the loose `z` bound.
`.ok none` is Python's `continue`; `.ok (some sig)` is the `return`. -/
def sign_attempt (xof : Xof) (st : DilithiumState)
    (A : List (List Polynomial)) (rho : List Nat) (t : List Polynomial)
    (s1 : List Polynomial) (message : List Nat) (seed : List Nat) :
    Except PyErr (Option Sig) :=
  let y := generate_y_vector xof seed st
  let w := matrix_multiply A y
  let w1 := w.map high_bits
  match npConcatenate (w1.map Polynomial.coefficients) with
  | .error e => .error e
  | .ok w1_coeffs =>
    if w1_coeffs.any (fun v => Q / 3 < |v|) then .ok none
    else
      let c := generate_challenge xof message (rho, t) w1
      match z_loop c y s1 with
      | .error e => .error e
      | .ok z =>
        match npConcatenate (z.map Polynomial.coefficients) with
        | .error e => .error e
        | .ok z_coeffs =>
          if z_coeffs.any (fun v => Q < |v|) then .ok none
          else .ok (some (z, c))

/-- The `while attempts < max_attempts` loop of `sign`; `fuel` is the
number of iterations left and `attempts` the Python counter.  Exhausting
the budget raises `RuntimeError` (the spec's RetryExhausted). -/
def sign_loop (xof : Xof) (st : DilithiumState)
    (A : List (List Polynomial)) (rho : List Nat) (t : List Polynomial)
    (s1 : List Polynomial) (message : List Nat) (ySeed : Nat → List Nat) :
    Nat → Nat → Except PyErr Sig × Nat
  | 0, attempts => (.error .runtimeError, attempts)
  | fuel + 1, attempts =>
    match sign_attempt xof st A rho t s1 message (ySeed attempts) with
    | .error e => (.error e, attempts + 1)
    | .ok (some sig) => (.ok sig, attempts + 1)
    | .ok none =>
      sign_loop xof st A rho t s1 message ySeed fuel (attempts + 1)

/-- `OptimizedDilithium.sign`: check key truthiness, fetch the matrix
through the cached `get_matrix_A` (which may update the caches), then run
the rejection loop.  `ySeed n` is the fresh `secrets.token_bytes(32)`
seed of attempt `n`.  Returns the result, the number of attempts used and
the state after the call. -/
def sign (xof : Xof) (st : DilithiumState) (message : List Nat)
    (ySeed : Nat → List Nat) (max_attempts : Nat) :
    (Except PyErr Sig × Nat) × DilithiumState :=
  if truthy st.rho && truthy st.t && truthy st.s1 && truthy st.s2 then
    match get_matrix_A xof st with
    | .error e => ((.error e, 0), st)
    | .ok (A, st2) =>
      (sign_loop xof st2 A (st.rho.getD []) (st.t.getD [])
        (st.s1.getD []) message ySeed max_attempts 0, st2)
  else ((.error .valueError, 0), st)

/-- The `ct` subtraction loop of `verify`:
`for i in range(self.k): w1[i] = w1[i] - c * t[i]`.  In `verify` the list
`w1 = A·z` has exactly `k` entries (the matrix is freshly generated with
`k` rows), so the loop is recursion on `w1`; `t[i]` raises `IndexError`
when `t` runs out first. -/
def ct_loop (c : Polynomial) : List Polynomial → List Polynomial →
    Except PyErr (List Polynomial)
  | [], _ => .ok []
  | wi :: ws, ti :: ts =>
    match ct_loop c ws ts with
    | .ok r => .ok ((wi.sub (c.mul ti)) :: r)
    | .error e => .error e
  | _ :: _, [] => .error .indexError

/-- The `w1` reconstruction inside `verify`: regenerate `A` from `rho`,
compute `A·z`, subtract `c·t[i]` row-wise, and extract high bits.  No
hint data enters: the signature carries none. -/
def verify_w1 (xof : Xof) (k l : Nat) (z : List Polynomial) (c : Polynomial)
    (rho : List Nat) (t : List Polynomial) :
    Except PyErr (List Polynomial) :=
  let A := generate_matrix_from_seed xof rho k l
  let w1 := matrix_multiply A z
  match ct_loop c w1 t with
  | .error e => .error e
  | .ok w1s => .ok (w1s.map high_bits)

/-- `OptimizedDilithium.verify`: the `z` bound check (on the stored
coefficients), the recomputation of `w1 = HighBits(A·z - c·t)`, the `w1`
bound check, and the challenge comparison.  The call reads only `k` and
`l` from the instance; the returned state is the instance state after the
call. -/
def verify (xof : Xof) (st : DilithiumState) (message : List Nat)
    (signature : Sig) (public_key : List Nat × List Polynomial) :
    Except PyErr Bool × DilithiumState :=
  let z := signature.1
  let c := signature.2
  let rho := public_key.1
  let t := public_key.2
  let result :=
    match npConcatenate (z.map Polynomial.coefficients) with
    | .error e => .error e
    | .ok z_coeffs =>
      if z_coeffs.any (fun v => Q ≤ |v|) then .ok false
      else
        match verify_w1 xof st.k st.l z c rho t with
        | .error e => .error e
        | .ok w1 =>
          match npConcatenate (w1.map Polynomial.coefficients) with
          | .error e => .error e
          | .ok w1_coeffs =>
            if w1_coeffs.any (fun v => Q / 3 ≤ |v|) then .ok false
            else
              let c_prime := generate_challenge xof message (rho, t) w1
              .ok (c.coefficients == c_prime.coefficients)
  (result, st)

/-! ### Definitions used to state and prove the properties -/

/-- A coefficient list is well formed when it has length `N` and all its
entries are canonical representatives in `[0, Q)`. -/
def Polynomial.WF (p : Polynomial) : Prop :=
  p.coefficients.length = N ∧ ∀ c ∈ p.coefficients, 0 ≤ c ∧ c < Q

instance (p : Polynomial) : Decidable p.WF := by
  unfold Polynomial.WF; infer_instance

/-- One signed product of the negacyclic convolution:
`a_i·b_j`, negated when `i + j ≥ N`. -/
def Polynomial.mulTerm (a b : Polynomial) (i j : Nat) : Int :=
  (if N ≤ i + j then -1 else 1) * a.coeff i * b.coeff j

/-- The spec's multiplication formula: the coefficient at degree `d` is
the sum over `i + j ≡ d (mod N)` of `a_i·b_j`, negated whenever
`i + j ≥ N`, reduced mod `q`. -/
def Polynomial.mulFormula (a b : Polynomial) (d : Nat) : Int :=
  (((List.range N).map (fun i =>
    ((List.range N).map (fun j =>
      if (i + j) % N = d then Polynomial.mulTerm a b i j else 0)).sum)).sum) % Q

/-- The index the double loop of `Polynomial.__mul__` writes at step
`(i, j)`. -/
def tdeg (ij : Nat × Nat) : Nat :=
  if N ≤ ij.1 + ij.2 then ij.1 + ij.2 - N else ij.1 + ij.2

/-- The signed product the double loop accumulates at step `(i, j)`,
before its reduction mod `Q`. -/
def mulAdd (a b : Polynomial) (ij : Nat × Nat) : Int :=
  if N ≤ ij.1 + ij.2 then
    -(a.coefficients.getD ij.1 0) * b.coefficients.getD ij.2 0
  else a.coefficients.getD ij.1 0 * b.coefficients.getD ij.2 0

/-- The index pairs `(i, j)` the double loop visits, in order. -/
def pairList : List (Nat × Nat) :=
  (List.range N).flatMap (fun i => (List.range N).map (fun j => (i, j)))

/-- The polynomial `1` (the constant monomial `X^0`). -/
def unitP : Polynomial := ⟨1 :: List.replicate (N - 1) 0⟩

/-- The transposition of indices `i` and `j`, used to describe one
`swapL`. -/
def transp (i j k : Nat) : Nat :=
  if k = j then i else if k = i then j else k

/-! Concrete instances used as evidence: a deterministic XOF oracle and
the values the scheme computes under it. -/

/-- A fresh level-2 instance (`OptimizedDilithium(security_level=2)`). -/
def st0 : DilithiumState := ⟨4, 4, 2, none, none, none, none, none, none⟩

/-- Byte pattern whose 32-bit words are all 2: centered-bounded sampling
with bound 2 maps the word 2 to the coefficient 0. -/
def smallZeroPat (n : Nat) : Nat := if n % 4 = 0 then 2 else 0

/-- Byte pattern whose 32-bit words are all 2095104 = GAMMA1: sampling
with bound GAMMA1 maps that word to the coefficient 0. -/
def yZeroPat (n : Nat) : Nat :=
  if n % 4 = 1 then 248 else if n % 4 = 2 then 31 else 0

/-- A concrete XOF oracle for the signing scenario: seed `[1]` (domain 3)
gives an all-zero `s1`; seed `[2]` gives `s2 = (1, 0, 0, 0)`; seed `[3]`
(domain 5) gives an all-zero masking vector `y`; seed `[4]` gives a `y`
whose first coefficient is 1900000; matrix queries under `rho = [9]`
give the zero matrix; a challenge query answers with the constant stream
0 or 1 according to byte 4097 of its input (the first byte of the
high-bits commitment, which distinguishes the signer's commitment from
the verifier's reconstruction). -/
def xofC : Xof := fun input n =>
  if input = [1, 3] then smallZeroPat n
  else if input = [2, 3] then (if n = 0 then 3 else smallZeroPat n)
  else if input = [3, 5] then yZeroPat n
  else if input = [4, 5] then
    (if n = 0 then 224 else if n = 1 then 245 else if n = 2 then 60
     else yZeroPat n)
  else if input.getD 4097 0 = 126 then 1
  else 0

/-- The public vector the scenario's keygen computes: `t = s2` since the
matrix is zero. -/
def tC : List Polynomial := unitP :: List.replicate 3 Polynomial.zero

/-- The zero matrix of the scenario. -/
def zmat : List (List Polynomial) :=
  List.replicate 4 (List.replicate 4 Polynomial.zero)

/-- The instance state after the scenario's `keygen`. -/
def stKey : DilithiumState :=
  ⟨4, 4, 2, some [9], some tC, some (List.replicate 4 Polynomial.zero),
    some tC, some zmat, some zmat⟩

/-- The high bits of the zero polynomial: every coefficient 127. -/
def hb0 : Polynomial := Polynomial.init (List.replicate 256 127)

/-- The challenge the signer derives (stream constant 0): coefficient
`+1` at positions 0..59. -/
def cC : Polynomial := Polynomial.init (List.replicate 60 1)

/-- The high bits of `0 - cC`: 1150 at positions 0..59, 127 elsewhere. -/
def hbNeg : Polynomial :=
  Polynomial.init (List.replicate 60 1150 ++ List.replicate 196 127)

/-- The masking polynomial drawn from seed `[4]`: first coefficient
1900000, the rest 0. -/
def yBig : Polynomial := Polynomial.init [1900000]

/-- `0 - cC`: coefficient `Q - 1` at positions 0..59. -/
def negC : Polynomial := Polynomial.init (List.replicate 60 (-1))

/-- A concrete XOF oracle for the double-`keygen` scenario: both key
generations sample zero (or almost zero) secrets, the first `rho = [10]`
gives the zero matrix and the second `rho = [20]` gives the matrix with
entry `(0,0) = 1`. -/
def xofC5 : Xof := fun input n =>
  if input = [11, 3] then smallZeroPat n
  else if input = [12, 3] then smallZeroPat n
  else if input = [14, 3] then smallZeroPat n
  else if input = [13, 3] then (if n = 0 then 3 else smallZeroPat n)
  else if input = [20, 0, 0, 1] then (if n = 0 then 1 else 0)
  else 0

/-- The matrix derived from the second `rho = [20]` of the double-keygen
scenario. -/
def m20 : List (List Polynomial) :=
  (unitP :: List.replicate 3 Polynomial.zero) ::
    List.replicate 3 (List.replicate 4 Polynomial.zero)

/-- The `s1` of the second keygen: `(1, 0, 0, 0)`. -/
def s1unit : List Polynomial := unitP :: List.replicate 3 Polynomial.zero

/-- The instance state after the scenario's first `keygen`. -/
def stK1 : DilithiumState :=
  ⟨4, 4, 2, some [10], some (List.replicate 4 Polynomial.zero),
    some (List.replicate 4 Polynomial.zero),
    some (List.replicate 4 Polynomial.zero), some zmat, some zmat⟩

/-- The instance state after the scenario's second `keygen`: `Acache` was
cleared, but the `lru_cache` layer still holds the first matrix. -/
def stK2 : DilithiumState :=
  ⟨4, 4, 2, some [20], some (List.replicate 4 Polynomial.zero),
    some s1unit, some (List.replicate 4 Polynomial.zero), none, some zmat⟩

/-- A small instance state with nonempty key material, used to witness
the signing-loop bound. -/
def stW : DilithiumState :=
  ⟨1, 1, 2, some [0], some [Polynomial.zero], some [Polynomial.zero],
    some [Polynomial.zero], none, none⟩

/-! ### Basic facts about the ring representation -/

theorem Q_pos : (0 : Int) < Q := by decide

theorem Polynomial.length_init (cs : List Int) :
    (Polynomial.init cs).coefficients.length = N := by
  simp only [Polynomial.init, List.length_append, List.length_map,
    List.length_replicate]
  have h : ((cs.take N).length) ≤ N := by
    simp [List.length_take]
  omega

theorem Polynomial.coeff_init (cs : List Int) (d : Nat) (hd : d < N) :
    (Polynomial.init cs).coeff d = cs.getD d 0 % Q := by
  simp only [Polynomial.init, Polynomial.coeff, List.getD_eq_getElem?_getD,
    List.getElem?_append, List.length_map, List.length_take]
  by_cases h : d < cs.length
  · have hmin : d < min N cs.length := by omega
    rw [if_pos hmin, List.getElem?_map, List.getElem?_take, if_pos hd,
      List.getElem?_eq_getElem h]
    simp
  · have hmin : ¬d < min N cs.length := by omega
    rw [if_neg hmin, List.getElem?_replicate,
      if_pos (show d - min N cs.length < N - min N cs.length by omega),
      List.getElem?_eq_none (show cs.length ≤ d by omega)]
    simp

theorem Polynomial.wf_init (cs : List Int) : (Polynomial.init cs).WF := by
  refine ⟨Polynomial.length_init cs, ?_⟩
  intro c hc
  simp only [Polynomial.init, List.mem_append, List.mem_map,
    List.mem_replicate] at hc
  rcases hc with ⟨a, _, rfl⟩ | ⟨_, rfl⟩
  · exact ⟨Int.emod_nonneg a (by decide), Int.emod_lt_of_pos a Q_pos⟩
  · exact ⟨le_refl 0, Q_pos⟩

theorem Polynomial.wf_zero : Polynomial.zero.WF := by
  constructor
  · simp [Polynomial.zero]
  · intro c hc
    rw [List.eq_of_mem_replicate hc]
    exact ⟨le_refl 0, Q_pos⟩

theorem Polynomial.coeff_nonneg_of_wf {p : Polynomial} (h : p.WF) (d : Nat) :
    0 ≤ p.coeff d ∧ p.coeff d < Q := by
  unfold Polynomial.coeff
  rcases Nat.lt_or_ge d p.coefficients.length with hd | hd
  · have hmem : p.coefficients.getD d 0 ∈ p.coefficients := by
      rw [List.getD_eq_getElem?_getD, List.getElem?_eq_getElem hd]
      exact List.getElem_mem hd
    exact h.2 _ hmem
  · rw [List.getD_eq_getElem?_getD, List.getElem?_eq_none hd]
    exact ⟨le_refl 0, Q_pos⟩

/-- `Polynomial.init` is the identity on already-normalised lists. -/
theorem Polynomial.init_of_wf {p : Polynomial} (h : p.WF) :
    Polynomial.init p.coefficients = p := by
  obtain ⟨hl, hb⟩ := h
  cases p with
  | mk cs =>
    simp only [Polynomial.init, Polynomial.mk.injEq]
    simp only at hl hb
    have htake : cs.take N = cs := List.take_of_length_le (le_of_eq hl)
    rw [htake]
    have hmap : cs.map (fun c => c % Q) = cs := by
      have h1 : cs.map (fun c => c % Q) = cs.map id := by
        apply List.map_congr_left
        intro c hc
        exact Int.emod_eq_of_lt (hb c hc).1 (hb c hc).2
      rw [h1, List.map_id]
    rw [hmap, hl]
    simp

/-- Two polynomials with well-formed lengths and equal coefficients are
equal. -/
theorem Polynomial.eq_of_coeff {p q : Polynomial}
    (hp : p.coefficients.length = N) (hq : q.coefficients.length = N)
    (h : ∀ d, d < N → p.coeff d = q.coeff d) : p = q := by
  cases p with
  | mk cs =>
    cases q with
    | mk ds =>
      simp only [Polynomial.mk.injEq]
      apply List.ext_getElem (by simp only at hp hq; omega)
      intro n h1 h2
      have hn : n < N := by simp only at hp; omega
      have := h n hn
      simp only [Polynomial.coeff, List.getD_eq_getElem?_getD,
        List.getElem?_eq_getElem h1, List.getElem?_eq_getElem h2] at this
      simpa using this

/-! ### The multiplication loop computes the negacyclic convolution -/

theorem foldl_foldl_flatMap {α β γ : Type} (g : β → α × γ → β)
    (as : List α) (bs : List γ) (init : β) :
    as.foldl (fun r a => bs.foldl (fun r2 c => g r2 (a, c)) r) init
      = (as.flatMap (fun a => bs.map (fun c => (a, c)))).foldl g init := by
  induction as generalizing init with
  | nil => rfl
  | cons a as ih =>
    simp only [List.foldl_cons, List.flatMap_cons, List.foldl_append,
      List.foldl_map]
    exact ih _

theorem mulStep_eq (a b : Polynomial) (res : List Int) (ij : Nat × Nat) :
    Polynomial.mulStep a b res ij
      = res.set (tdeg ij) ((res.getD (tdeg ij) 0 + mulAdd a b ij % Q) % Q) := by
  rcases ij with ⟨i, j⟩
  by_cases h : N ≤ i + j <;>
    simp [Polynomial.mulStep, mulAdd, tdeg, h]

theorem length_mulStep (a b : Polynomial) (res : List Int) (ij : Nat × Nat) :
    (Polynomial.mulStep a b res ij).length = res.length := by
  rw [mulStep_eq]; exact List.length_set ..

theorem foldl_mulStep_getD (a b : Polynomial) (L : List (Nat × Nat))
    (res : List Int) (hres : res.length = N) (d : Nat) (_hd : d < N)
    (hL : ∀ ij ∈ L, tdeg ij < N) :
    (L.foldl (Polynomial.mulStep a b) res).getD d 0 =
      L.foldl
        (fun acc ij =>
          if tdeg ij = d then (acc + mulAdd a b ij % Q) % Q else acc)
        (res.getD d 0) := by
  induction L generalizing res with
  | nil => rfl
  | cons ij L ih =>
    simp only [List.foldl_cons]
    have hlen : (Polynomial.mulStep a b res ij).length = N := by
      rw [length_mulStep]; exact hres
    rw [ih _ hlen (fun x hx => hL x (List.mem_cons_of_mem _ hx))]
    congr 1
    rw [mulStep_eq]
    have htd : tdeg ij < N := hL ij (List.mem_cons_self ..)
    by_cases h : tdeg ij = d
    · rw [if_pos h, ← h, List.getD_eq_getElem?_getD,
        List.getElem?_set_self (by omega), Option.getD_some]
    · rw [if_neg h, List.getD_eq_getElem?_getD, List.getElem?_set_ne h,
        ← List.getD_eq_getElem?_getD]

theorem foldl_cond_add_emod (f : Nat × Nat → Int) (p : Nat × Nat → Bool)
    (L : List (Nat × Nat)) (c : Int) :
    L.foldl (fun acc ij => if p ij then (acc + f ij % Q) % Q else acc) (c % Q)
      = (c + (L.map (fun ij => if p ij then f ij else 0)).sum) % Q := by
  induction L generalizing c with
  | nil => simp
  | cons ij L ih =>
    simp only [List.foldl_cons, List.map_cons, List.sum_cons]
    by_cases h : p ij
    · rw [if_pos h, if_pos h]
      have h1 : (c % Q + f ij % Q) % Q = (c + f ij) % Q :=
        (Int.add_emod c (f ij) Q).symm
      rw [h1, ih (c + f ij), ← add_assoc]
    · rw [if_neg h, if_neg h, ih c]
      simp [← add_assoc]

theorem tdeg_lt (ij : Nat × Nat) (hi : ij.1 < N) (hj : ij.2 < N) :
    tdeg ij < N := by
  rcases ij with ⟨i, j⟩
  simp only [tdeg] at *
  by_cases h : N ≤ i + j <;> simp [h] <;> omega

theorem mem_pairList {ij : Nat × Nat} (h : ij ∈ pairList) :
    ij.1 < N ∧ ij.2 < N := by
  simp only [pairList, List.mem_flatMap, List.mem_map, List.mem_range] at h
  obtain ⟨i, hi, j, hj, rfl⟩ := h
  exact ⟨hi, hj⟩

theorem sum_map_pairs {α γ : Type} (g : α × γ → Int) (as : List α)
    (bs : List γ) :
    ((as.flatMap (fun a => bs.map (fun c => (a, c)))).map g).sum
      = (as.map (fun a => (bs.map (fun c => g (a, c))).sum)).sum := by
  induction as with
  | nil => rfl
  | cons a as ih =>
    simp only [List.flatMap_cons, List.map_append, List.sum_append,
      List.map_cons, List.sum_cons, List.map_map]
    rw [ih]
    rfl

/-- The coefficient at any degree `d < N` of the product computed by the
double loop of `__mul__` is the negacyclic convolution sum mod `Q`. -/
theorem Polynomial.mul_coeff (a b : Polynomial) (d : Nat) (hd : d < N) :
    (a.mul b).coeff d = Polynomial.mulFormula a b d := by
  unfold Polynomial.mul
  rw [Polynomial.coeff_init _ _ hd]
  rw [foldl_foldl_flatMap (Polynomial.mulStep a b) (List.range N)
    (List.range N) (List.replicate N 0)]
  rw [show ((List.range N).flatMap fun i => (List.range N).map fun j => (i, j))
      = pairList from rfl]
  rw [foldl_mulStep_getD a b pairList (List.replicate N 0) (by simp) d hd
    (fun ij hij => tdeg_lt ij (mem_pairList hij).1 (mem_pairList hij).2)]
  have h0 : (List.replicate N (0 : Int)).getD d 0 = 0 % Q := by
    rw [List.getD_eq_getElem?_getD, List.getElem?_replicate, if_pos hd]
    rfl
  rw [h0]
  rw [show (fun acc ij =>
        if tdeg ij = d then (acc + mulAdd a b ij % Q) % Q else acc)
      = (fun acc ij =>
        if (fun ij => decide (tdeg ij = d)) ij then (acc + mulAdd a b ij % Q) % Q
        else acc) by
    funext acc ij
    by_cases h : tdeg ij = d <;> simp [h]]
  rw [foldl_cond_add_emod (mulAdd a b) (fun ij => decide (tdeg ij = d))
    pairList 0]
  rw [Int.emod_emod_of_dvd _ dvd_rfl, zero_add]
  unfold Polynomial.mulFormula
  congr 1
  rw [pairList, sum_map_pairs]
  apply congrArg
  apply List.map_congr_left
  intro i hi
  rw [List.mem_range] at hi
  apply congrArg
  apply List.map_congr_left
  intro j hj
  rw [List.mem_range] at hj
  have htd : tdeg (i, j) = (i + j) % N := by
    simp only [tdeg]
    by_cases h : N ≤ i + j
    · rw [if_pos h, Nat.mod_eq_sub_mod h, Nat.mod_eq_of_lt (by omega)]
    · rw [if_neg h, Nat.mod_eq_of_lt (by omega)]
  have hterm : mulAdd a b (i, j) = Polynomial.mulTerm a b i j := by
    simp only [mulAdd, Polynomial.mulTerm, Polynomial.coeff]
    by_cases h : N ≤ i + j <;> simp [h]
  simp only [htd, hterm]
  by_cases h : (i + j) % N = d <;> simp [h]

/-! ### Consequences of the convolution formula -/

theorem sum_map_range_eq_single (n m : Nat) (f : Nat → Int) (hm : m < n)
    (h : ∀ i, i < n → i ≠ m → f i = 0) :
    ((List.range n).map f).sum = f m := by
  induction n with
  | zero => omega
  | succ n ih =>
    rw [List.range_succ, List.map_append, List.sum_append]
    by_cases hmn : m = n
    · subst hmn
      have hz : ((List.range m).map f).sum = 0 := by
        apply List.sum_eq_zero
        intro x hx
        simp only [List.mem_map, List.mem_range] at hx
        obtain ⟨i, hi, rfl⟩ := hx
        exact h i (by omega) (by omega)
      simp [hz]
    · have hm2 : m < n := by omega
      rw [ih hm2 (fun i hi hne => h i (by omega) hne)]
      have hfn : f n = 0 := h n (by omega) (fun he => hmn he.symm)
      simp [hfn]

theorem sum_map_range_eq_pair (n m1 m2 : Nat) (f : Nat → Int)
    (h12 : m1 < m2) (hm : m2 < n)
    (h : ∀ i, i < n → i ≠ m1 → i ≠ m2 → f i = 0) :
    ((List.range n).map f).sum = f m1 + f m2 := by
  induction n with
  | zero => omega
  | succ n ih =>
    rw [List.range_succ, List.map_append, List.sum_append]
    by_cases hmn : m2 = n
    · subst hmn
      rw [sum_map_range_eq_single m2 m1 f h12
        (fun i hi hne => h i (by omega) hne (by omega))]
      simp
    · have hm2 : m2 < n := by omega
      rw [ih hm2 (fun i hi h1 h2 => h i (by omega) h1 h2)]
      have hfn : f n = 0 := h n (by omega) (by omega) (fun he => hmn he.symm)
      simp [hfn]

theorem Polynomial.coeff_zero_poly (d : Nat) : Polynomial.zero.coeff d = 0 := by
  simp only [Polynomial.coeff, Polynomial.zero, List.getD_eq_getElem?_getD,
    List.getElem?_replicate]
  by_cases h : d < N <;> simp [h]

theorem Polynomial.length_mul (a b : Polynomial) :
    (a.mul b).coefficients.length = N := Polynomial.length_init _

theorem Polynomial.zero_mul_poly (b : Polynomial) :
    Polynomial.zero.mul b = Polynomial.zero := by
  apply Polynomial.eq_of_coeff (Polynomial.length_mul _ _) (by simp [Polynomial.zero])
  intro d hd
  rw [Polynomial.mul_coeff _ _ _ hd, Polynomial.coeff_zero_poly]
  unfold Polynomial.mulFormula
  have hz : ((List.range N).map (fun i =>
      ((List.range N).map (fun j =>
        if (i + j) % N = d then Polynomial.mulTerm Polynomial.zero b i j
        else 0)).sum)).sum = 0 := by
    apply List.sum_eq_zero
    intro x hx
    simp only [List.mem_map, List.mem_range] at hx
    obtain ⟨i, _, rfl⟩ := hx
    apply List.sum_eq_zero
    intro y hy
    simp only [List.mem_map, List.mem_range] at hy
    obtain ⟨j, _, rfl⟩ := hy
    by_cases hc : (i + j) % N = d
    · simp [hc, Polynomial.mulTerm, Polynomial.coeff_zero_poly]
    · simp [hc]
  rw [hz]
  rfl

theorem Polynomial.mul_zero_poly (a : Polynomial) :
    a.mul Polynomial.zero = Polynomial.zero := by
  apply Polynomial.eq_of_coeff (Polynomial.length_mul _ _) (by simp [Polynomial.zero])
  intro d hd
  rw [Polynomial.mul_coeff _ _ _ hd, Polynomial.coeff_zero_poly]
  unfold Polynomial.mulFormula
  have hz : ((List.range N).map (fun i =>
      ((List.range N).map (fun j =>
        if (i + j) % N = d then Polynomial.mulTerm a Polynomial.zero i j
        else 0)).sum)).sum = 0 := by
    apply List.sum_eq_zero
    intro x hx
    simp only [List.mem_map, List.mem_range] at hx
    obtain ⟨i, _, rfl⟩ := hx
    apply List.sum_eq_zero
    intro y hy
    simp only [List.mem_map, List.mem_range] at hy
    obtain ⟨j, _, rfl⟩ := hy
    by_cases hc : (i + j) % N = d
    · simp [hc, Polynomial.mulTerm, Polynomial.coeff_zero_poly]
    · simp [hc]
  rw [hz]
  rfl

theorem unitP_coeff_zero : unitP.coeff 0 = 1 := rfl

theorem unitP_coeff_pos (j : Nat) (hj : j ≠ 0) : unitP.coeff j = 0 := by
  rcases j with _ | j
  · omega
  · simp only [unitP, Polynomial.coeff, List.getD_eq_getElem?_getD,
      List.getElem?_cons_succ, List.getElem?_replicate]
    by_cases h : j < N - 1 <;> simp [h]

theorem unitP_length : unitP.coefficients.length = N := by
  simp only [unitP, List.length_cons, List.length_replicate]
  decide

/-- Multiplying by the constant polynomial `1` is the identity on
well-formed polynomials; `verify` uses `c * t[i]`, so this computes
`c * 1`. -/
theorem Polynomial.mul_unitP {a : Polynomial} (ha : a.WF) :
    a.mul unitP = a := by
  apply Polynomial.eq_of_coeff (Polynomial.length_mul _ _) ha.1
  intro d hd
  rw [Polynomial.mul_coeff _ _ _ hd]
  unfold Polynomial.mulFormula
  have hinner : ∀ i ∈ List.range N,
      ((List.range N).map (fun j =>
        if (i + j) % N = d then Polynomial.mulTerm a unitP i j else 0)).sum
      = (fun i => if i = d then a.coeff i else 0) i := by
    intro i hi
    rw [List.mem_range] at hi
    rw [sum_map_range_eq_single N 0 _ (by decide) ?_]
    · have hmod : (i + 0) % N = i := by
        rw [Nat.add_zero, Nat.mod_eq_of_lt hi]
      simp only [hmod]
      by_cases hc : i = d
      · rw [if_pos hc, if_pos hc]
        have hnle : ¬N ≤ i + 0 := by omega
        simp only [Polynomial.mulTerm, if_neg hnle, unitP_coeff_zero]
        ring
      · rw [if_neg hc, if_neg hc]
    · intro j _ hj
      have hu : unitP.coeff j = 0 := unitP_coeff_pos j hj
      by_cases hc : (i + j) % N = d
      · simp [hc, Polynomial.mulTerm, hu]
      · simp [hc]
  rw [List.map_congr_left hinner]
  rw [sum_map_range_eq_single N d _ hd (fun i _ hne => by simp [hne])]
  simp only [if_pos rfl]
  exact Int.emod_eq_of_lt (Polynomial.coeff_nonneg_of_wf ha d).1
    (Polynomial.coeff_nonneg_of_wf ha d).2

/-! ### Addition, subtraction and the zero matrix -/

theorem Polynomial.add_coeff {a b : Polynomial}
    (ha : a.coefficients.length = N) (hb : b.coefficients.length = N)
    (d : Nat) (hd : d < N) :
    (a.add b).coeff d = (a.coeff d + b.coeff d) % Q := by
  unfold Polynomial.add
  rw [Polynomial.coeff_init _ _ hd]
  have hz : d < (a.coefficients.zip b.coefficients).length := by
    rw [List.length_zip]; omega
  rw [List.getD_eq_getElem?_getD, List.getElem?_map,
    List.getElem?_eq_getElem hz, List.getElem_zip, Option.map_some',
    Option.getD_some]
  simp only [Polynomial.coeff, List.getD_eq_getElem?_getD,
    List.getElem?_eq_getElem (show d < a.coefficients.length by omega),
    List.getElem?_eq_getElem (show d < b.coefficients.length by omega),
    Option.getD_some]
  exact Int.emod_emod_of_dvd _ dvd_rfl

theorem Polynomial.length_add (a b : Polynomial) :
    (a.add b).coefficients.length = N := Polynomial.length_init _

theorem Polynomial.length_sub (a b : Polynomial) :
    (a.sub b).coefficients.length = N := Polynomial.length_init _

theorem Polynomial.sub_coeff {a b : Polynomial}
    (ha : a.coefficients.length = N) (hb : b.coefficients.length = N)
    (d : Nat) (hd : d < N) :
    (a.sub b).coeff d = (a.coeff d - b.coeff d) % Q := by
  unfold Polynomial.sub
  rw [Polynomial.coeff_init _ _ hd]
  have hz : d < (a.coefficients.zip b.coefficients).length := by
    rw [List.length_zip]; omega
  rw [List.getD_eq_getElem?_getD, List.getElem?_map,
    List.getElem?_eq_getElem hz, List.getElem_zip, Option.map_some',
    Option.getD_some]
  simp only [Polynomial.coeff, List.getD_eq_getElem?_getD,
    List.getElem?_eq_getElem (show d < a.coefficients.length by omega),
    List.getElem?_eq_getElem (show d < b.coefficients.length by omega),
    Option.getD_some]
  exact Int.emod_emod_of_dvd _ dvd_rfl

theorem Polynomial.add_zero_poly {a : Polynomial} (ha : a.WF) :
    a.add Polynomial.zero = a := by
  apply Polynomial.eq_of_coeff (Polynomial.length_add _ _) ha.1
  intro d hd
  rw [Polynomial.add_coeff ha.1 Polynomial.wf_zero.1 d hd,
    Polynomial.coeff_zero_poly, add_zero]
  exact Int.emod_eq_of_lt (Polynomial.coeff_nonneg_of_wf ha d).1
    (Polynomial.coeff_nonneg_of_wf ha d).2

theorem Polynomial.zero_add_poly {a : Polynomial} (ha : a.WF) :
    Polynomial.zero.add a = a := by
  apply Polynomial.eq_of_coeff (Polynomial.length_add _ _) ha.1
  intro d hd
  rw [Polynomial.add_coeff Polynomial.wf_zero.1 ha.1 d hd,
    Polynomial.coeff_zero_poly, zero_add]
  exact Int.emod_eq_of_lt (Polynomial.coeff_nonneg_of_wf ha d).1
    (Polynomial.coeff_nonneg_of_wf ha d).2

/-- The row sum of `_matrix_multiply` for a row of zero polynomials. -/
theorem fold_row_zero (pairs : List (Polynomial × Polynomial))
    (h : ∀ pr ∈ pairs, pr.1 = Polynomial.zero) :
    pairs.foldl (fun s av => s.add (av.1.mul av.2)) Polynomial.zero
      = Polynomial.zero := by
  induction pairs with
  | nil => rfl
  | cons pr ps ih =>
    simp only [List.foldl_cons]
    rw [h pr (List.mem_cons_self ..), Polynomial.zero_mul_poly,
      Polynomial.add_zero_poly Polynomial.wf_zero]
    exact ih (fun x hx => h x (List.mem_cons_of_mem _ hx))

/-- `_matrix_multiply` by an all-zero matrix gives all-zero rows. -/
theorem matrix_multiply_zero (m : List (List Polynomial))
    (v : List Polynomial) (h : ∀ row ∈ m, ∀ p ∈ row, p = Polynomial.zero) :
    matrix_multiply m v = List.replicate m.length Polynomial.zero := by
  unfold matrix_multiply
  refine List.eq_replicate_iff.mpr ⟨by simp, ?_⟩
  intro x hx
  simp only [List.mem_map] at hx
  obtain ⟨row, hrow, rfl⟩ := hx
  apply fold_row_zero
  intro pr hpr
  exact h row hrow pr.1 (List.of_mem_zip hpr).1

/-! ### Lengths, bounds and error-freedom of the loops -/

theorem generate_vector_length (xof : Xof) (seed : List Nat) (size : Nat)
    (bound : Int) (domain : Nat) :
    (generate_vector xof seed size bound domain).length = size := by
  simp [generate_vector]

theorem generate_vector_wf (xof : Xof) (seed : List Nat) (size : Nat)
    (bound : Int) (domain : Nat) :
    ∀ p ∈ generate_vector xof seed size bound domain, p.WF := by
  intro p hp
  simp only [generate_vector, List.mem_map] at hp
  obtain ⟨i, _, rfl⟩ := hp
  exact Polynomial.wf_init _

theorem matrix_multiply_length (m : List (List Polynomial))
    (v : List Polynomial) : (matrix_multiply m v).length = m.length := by
  simp [matrix_multiply]

theorem generate_matrix_length (xof : Xof) (seed : List Nat) (k l : Nat) :
    (generate_matrix_from_seed xof seed k l).length = k := by
  simp [generate_matrix_from_seed]

/-- Every coefficient `high_bits` produces from a well-formed polynomial
lies in `[0, 1150]` (so well inside `[0, Q/3)`). -/
theorem high_bits_mem {p : Polynomial} (hp : p.WF) :
    ∀ v ∈ (high_bits p).coefficients, 0 ≤ v ∧ v ≤ 1150 := by
  intro v hv
  simp only [high_bits, Polynomial.init, List.mem_append, List.mem_map,
    List.mem_replicate] at hv
  rcases hv with ⟨x, hx, rfl⟩ | ⟨_, rfl⟩
  · have hx2 : x ∈ p.coefficients.map (fun c => (c + GAMMA2).fdiv (2 ^ Dparam)) :=
      List.mem_of_mem_take hx
    simp only [List.mem_map] at hx2
    obtain ⟨c, hc, rfl⟩ := hx2
    obtain ⟨hc0, hcQ⟩ := hp.2 c hc
    have h0 : 0 ≤ (c + GAMMA2).fdiv (2 ^ Dparam) :=
      Int.fdiv_nonneg (by
        have : (0 : Int) ≤ GAMMA2 := by decide
        omega) (by decide)
    have h1 : (c + GAMMA2).fdiv (2 ^ Dparam) ≤ 1150 := by
      have hle : c + GAMMA2 ≤ 9427968 := by
        have : GAMMA2 = 1047552 := by decide
        have hq : Q = 8380417 := rfl
        omega
      calc (c + GAMMA2).fdiv (2 ^ Dparam)
          ≤ (9427968 : Int).fdiv (2 ^ Dparam) := by
            rw [Int.fdiv_eq_ediv _ (by decide), Int.fdiv_eq_ediv _ (by decide)]
            exact Int.ediv_le_ediv (by decide) hle
        _ = 1150 := by decide
    constructor
    · exact Int.emod_nonneg _ (by decide)
    · rw [Int.emod_eq_of_lt h0 (by
        have : (1150 : Int) < Q := by decide
        omega)]
      exact h1
  · exact ⟨le_refl 0, by decide⟩

theorem high_bits_length (p : Polynomial) :
    (high_bits p).coefficients.length = N := Polynomial.length_init _

/-- `np.concatenate` succeeds on any non-empty list of arrays. -/
theorem npConcatenate_ok {ls : List (List Int)} (h : ls ≠ []) :
    npConcatenate ls = .ok ls.flatten := by
  simp [npConcatenate, h]

/-- The `z` loop succeeds and returns one polynomial per entry of `y`
whenever `s1` is at least as long as `y`; every returned polynomial is
well formed. -/
theorem z_loop_ok (c : Polynomial) (y s1 : List Polynomial)
    (h : y.length ≤ s1.length) :
    ∃ z, z_loop c y s1 = .ok z ∧ z.length = y.length ∧ ∀ p ∈ z, p.WF := by
  induction y generalizing s1 with
  | nil => exact ⟨[], rfl, rfl, by simp⟩
  | cons yi ys ih =>
    cases s1 with
    | nil => simp at h
    | cons si ss =>
      obtain ⟨z, hz, hlen, hwf⟩ := ih ss (by simpa using h)
      refine ⟨(yi.add (c.mul si)) :: z, ?_, by simp [hlen], ?_⟩
      · simp only [z_loop, hz]
      · intro p hp
        rcases List.mem_cons.mp hp with rfl | hp2
        · exact Polynomial.wf_init _
        · exact hwf p hp2

/-- The `ct` subtraction loop of `verify` succeeds whenever `t` is at
least as long as the `w1` list. -/
theorem ct_loop_ok (c : Polynomial) (w1 t : List Polynomial)
    (h : w1.length ≤ t.length) :
    ∃ r, ct_loop c w1 t = .ok r ∧ r.length = w1.length ∧
      ∀ p ∈ r, p.WF := by
  induction w1 generalizing t with
  | nil => exact ⟨[], rfl, rfl, by simp⟩
  | cons wi ws ih =>
    cases t with
    | nil => simp at h
    | cons ti ts =>
      obtain ⟨r, hr, hlen, hwf⟩ := ih ts (by simpa using h)
      refine ⟨(wi.sub (c.mul ti)) :: r, ?_, by simp [hlen], ?_⟩
      · simp only [ct_loop, hr]
      · intro p hp
        rcases List.mem_cons.mp hp with rfl | hp2
        · exact Polynomial.wf_init _
        · exact hwf p hp2

/-- A bound check `any (Q ≤ |v|)` never fires on stored coefficients in
`[0, Q)`. -/
theorem any_Q_le_abs_eq_false {l : List Int}
    (h : ∀ v ∈ l, 0 ≤ v ∧ v < Q) :
    (l.any fun v => Q ≤ |v|) = false := by
  rw [List.any_eq_false]
  intro v hv
  obtain ⟨h0, h1⟩ := h v hv
  simp only [decide_eq_true_eq]
  rw [abs_of_nonneg h0]
  omega

/-- `get_matrix_A` succeeds when `rho` is truthy, yields a matrix with at
least one row when the caches hold one (or `k ≥ 1`), and only touches the
cache fields of the state. -/
theorem get_matrix_A_spec (xof : Xof) (st : DilithiumState)
    (hrho : truthy st.rho = true) (hk : 1 ≤ st.k)
    (hlru : ∀ A ∈ st.lruA, 1 ≤ A.length)
    (hac : ∀ A ∈ st.Acache, 1 ≤ A.length) :
    ∃ A st2, get_matrix_A xof st = .ok (A, st2) ∧ 1 ≤ A.length ∧
      st2.k = st.k ∧ st2.l = st.l ∧ st2.rho = st.rho ∧ st2.t = st.t ∧
      st2.s1 = st.s1 ∧ st2.s2 = st.s2 := by
  unfold get_matrix_A
  cases hl : st.lruA with
  | some A =>
    exact ⟨A, st, rfl, hlru A (by rw [hl]; exact rfl), rfl, rfl, rfl, rfl,
      rfl, rfl⟩
  | none =>
    cases hr : st.rho with
    | none => rw [hr] at hrho; simp [truthy] at hrho
    | some rho =>
      cases hA : st.Acache with
      | some A0 =>
        exact ⟨A0, _, rfl, hac A0 (by rw [hA]; exact rfl), rfl, rfl, rfl,
          rfl, rfl, rfl⟩
      | none =>
        refine ⟨generate_matrix_from_seed xof rho st.k st.l, _, rfl, ?_,
          rfl, rfl, rfl, rfl, rfl, rfl⟩
        rw [generate_matrix_length]
        exact hk

/-- One signing attempt never raises when the matrix has at least one
row, `l ≥ 1`, and `s1` has at least `l` entries. -/
theorem sign_attempt_ok (xof : Xof) (st : DilithiumState)
    (A : List (List Polynomial)) (rho : List Nat) (t : List Polynomial)
    (s1 : List Polynomial) (msg seed : List Nat)
    (hA : 1 ≤ A.length) (hl : 1 ≤ st.l) (hs1 : st.l ≤ s1.length) :
    ∃ o, sign_attempt xof st A rho t s1 msg seed = .ok o := by
  have hylen : (generate_y_vector xof seed st).length = st.l := by
    unfold generate_y_vector
    exact generate_vector_length ..
  obtain ⟨z, hz, hzlen, _⟩ := z_loop_ok
    (generate_challenge xof msg (rho, t)
      ((matrix_multiply A (generate_y_vector xof seed st)).map high_bits))
    (generate_y_vector xof seed st) s1 (by rw [hylen]; exact hs1)
  have hne1 : ((matrix_multiply A (generate_y_vector xof seed st)).map
      high_bits).map Polynomial.coefficients ≠ [] := by
    apply List.ne_nil_of_length_pos
    simp only [List.length_map, matrix_multiply_length]
    omega
  have hne2 : z.map Polynomial.coefficients ≠ [] := by
    apply List.ne_nil_of_length_pos
    rw [List.length_map, hzlen, hylen]
    omega
  simp only [sign_attempt]
  rw [npConcatenate_ok hne1]
  simp only []
  by_cases hb1 : ((((matrix_multiply A (generate_y_vector xof seed st)).map
      high_bits).map Polynomial.coefficients).flatten.any
      fun v => Q / 3 < |v|) = true
  · exact ⟨none, by simp only [hb1, if_true]⟩
  · rw [Bool.not_eq_true] at hb1
    simp only [hb1, Bool.false_eq_true, if_false, hz, npConcatenate_ok hne2]
    by_cases hb2 : ((z.map Polynomial.coefficients).flatten.any
        fun v => Q < |v|) = true
    · exact ⟨none, by simp only [hb2, if_true]⟩
    · rw [Bool.not_eq_true] at hb2
      simp only [hb2, Bool.false_eq_true, if_false]
      exact ⟨_, rfl⟩

/-- The `z` loop only returns well-formed polynomials, whatever its
inputs. -/
theorem z_loop_wf_of_ok {c : Polynomial} {y s1 z : List Polynomial}
    (h : z_loop c y s1 = .ok z) : ∀ p ∈ z, p.WF := by
  induction y generalizing s1 z with
  | nil =>
    cases s1 <;>
      · simp only [z_loop] at h
        cases h
        simp
  | cons yi ys ih =>
    cases s1 with
    | nil => simp only [z_loop] at h; cases h
    | cons si ss =>
      simp only [z_loop] at h
      cases hrec : z_loop c ys ss with
      | error e => rw [hrec] at h; cases h
      | ok r =>
        rw [hrec] at h
        cases h
        intro p hp
        rcases List.mem_cons.mp hp with rfl | hp2
        · exact Polynomial.wf_init _
        · exact ih hrec p hp2

/-- A successful attempt's `z` is well formed. -/
theorem sign_attempt_some_wf {xof : Xof} {st : DilithiumState}
    {A : List (List Polynomial)} {rho : List Nat} {t : List Polynomial}
    {s1 : List Polynomial} {msg seed : List Nat} {z : List Polynomial}
    {c : Polynomial}
    (h : sign_attempt xof st A rho t s1 msg seed = .ok (some (z, c))) :
    ∀ p ∈ z, p.WF := by
  simp only [sign_attempt] at h
  cases h1 : npConcatenate
      (((matrix_multiply A (generate_y_vector xof seed st)).map
        high_bits).map Polynomial.coefficients) with
  | error e => simp only [h1] at h; cases h
  | ok w1c =>
    simp only [h1] at h
    by_cases hb1 : (w1c.any fun v => Q / 3 < |v|) = true
    · simp only [hb1, if_true] at h; cases h
    · rw [Bool.not_eq_true] at hb1
      simp only [hb1, Bool.false_eq_true, if_false] at h
      cases h2 : z_loop
          (generate_challenge xof msg (rho, t)
            ((matrix_multiply A (generate_y_vector xof seed st)).map
              high_bits))
          (generate_y_vector xof seed st) s1 with
      | error e => simp only [h2] at h; cases h
      | ok z2 =>
        simp only [h2] at h
        cases h3 : npConcatenate (z2.map Polynomial.coefficients) with
        | error e => simp only [h3] at h; cases h
        | ok zc =>
          simp only [h3] at h
          by_cases hb2 : (zc.any fun v => Q < |v|) = true
          · simp only [hb2, if_true] at h; cases h
          · rw [Bool.not_eq_true] at hb2
            simp only [hb2, Bool.false_eq_true, if_false] at h
            cases h
            exact z_loop_wf_of_ok h2

/-- The rejection loop uses at most its fuel, and ends in a signature or
the `RuntimeError` of exhaustion when no attempt raises. -/
theorem sign_loop_spec (xof : Xof) (st : DilithiumState)
    (A : List (List Polynomial)) (rho : List Nat) (t : List Polynomial)
    (s1 : List Polynomial) (msg : List Nat) (ySeed : Nat → List Nat)
    (hattempt : ∀ seed, ∃ o,
      sign_attempt xof st A rho t s1 msg seed = .ok o) :
    ∀ fuel attempts,
      (sign_loop xof st A rho t s1 msg ySeed fuel attempts).2
          ≤ attempts + fuel ∧
        ((sign_loop xof st A rho t s1 msg ySeed fuel attempts).1
            = .error .runtimeError ∨
          ∃ s, (sign_loop xof st A rho t s1 msg ySeed fuel attempts).1
            = .ok s) := by
  intro fuel
  induction fuel with
  | zero => intro attempts; exact ⟨le_refl _, Or.inl rfl⟩
  | succ fuel ih =>
    intro attempts
    obtain ⟨o, ho⟩ := hattempt (ySeed attempts)
    cases o with
    | some sig =>
      simp only [sign_loop, ho]
      exact ⟨by omega, Or.inr ⟨sig, rfl⟩⟩
    | none =>
      simp only [sign_loop, ho]
      obtain ⟨h1, h2⟩ := ih (attempts + 1)
      exact ⟨by omega, h2⟩

/-- A signature returned by the rejection loop has well-formed `z`. -/
theorem sign_loop_ok_wf {xof : Xof} {st : DilithiumState}
    {A : List (List Polynomial)} {rho : List Nat} {t : List Polynomial}
    {s1 : List Polynomial} {msg : List Nat} {ySeed : Nat → List Nat}
    {z : List Polynomial} {c : Polynomial} :
    ∀ {fuel attempts},
      (sign_loop xof st A rho t s1 msg ySeed fuel attempts).1 = .ok (z, c) →
      ∀ p ∈ z, p.WF := by
  intro fuel
  induction fuel with
  | zero => intro attempts h; cases h
  | succ fuel ih =>
    intro attempts h
    cases ho : sign_attempt xof st A rho t s1 msg (ySeed attempts) with
    | error e =>
      simp only [sign_loop, ho] at h
      cases h
    | ok o =>
      cases o with
      | some sig =>
        simp only [sign_loop, ho] at h
        cases h
        exact sign_attempt_some_wf ho
      | none =>
        simp only [sign_loop, ho] at h
        exact ih h

/-- `verify` returns a boolean and the unchanged state whenever the
signature's `z` is non-empty and the public `t` has at least `k`
entries. -/
theorem verify_no_raise (xof : Xof) (st : DilithiumState) (msg : List Nat)
    (sig : Sig) (pk : List Nat × List Polynomial)
    (hz : sig.1 ≠ []) (ht : st.k ≤ pk.2.length) (hk : 1 ≤ st.k) :
    ∃ b, verify xof st msg sig pk = (.ok b, st) := by
  obtain ⟨z, c⟩ := sig
  obtain ⟨rho, t⟩ := pk
  simp only at hz ht
  have hne1 : z.map Polynomial.coefficients ≠ [] := by
    simpa [List.map_eq_nil_iff] using hz
  have hw1len : (matrix_multiply
      (generate_matrix_from_seed xof rho st.k st.l) z).length = st.k := by
    rw [matrix_multiply_length, generate_matrix_length]
  obtain ⟨r, hr, hrlen, _⟩ := ct_loop_ok c
    (matrix_multiply (generate_matrix_from_seed xof rho st.k st.l) z) t
    (by omega)
  have hv : verify_w1 xof st.k st.l z c rho t = .ok (r.map high_bits) := by
    simp only [verify_w1, hr]
  have hne2 : (r.map high_bits).map Polynomial.coefficients ≠ [] := by
    apply List.ne_nil_of_length_pos
    rw [List.length_map, List.length_map, hrlen, hw1len]
    omega
  simp only [verify, npConcatenate_ok hne1]
  by_cases hb1 : ((z.map Polynomial.coefficients).flatten.any
      fun v => Q ≤ |v|) = true
  · exact ⟨false, by simp only [hb1, if_true]⟩
  · rw [Bool.not_eq_true] at hb1
    simp only [hb1, Bool.false_eq_true, if_false, hv,
      npConcatenate_ok hne2]
    by_cases hb2 : (((r.map high_bits).map Polynomial.coefficients).flatten.any
        fun v => Q / 3 ≤ |v|) = true
    · exact ⟨false, by simp only [hb2, if_true]⟩
    · rw [Bool.not_eq_true] at hb2
      simp only [hb2, Bool.false_eq_true, if_false]
      exact ⟨_, rfl⟩

/-- Membership in an `init`-normalised coefficient list. -/
theorem mem_init {v : Int} {cs : List Int}
    (h : v ∈ (Polynomial.init cs).coefficients) :
    (∃ x ∈ cs, v = x % Q) ∨ v = 0 := by
  simp only [Polynomial.init, List.mem_append, List.mem_map,
    List.mem_replicate] at h
  rcases h with ⟨x, hx, rfl⟩ | ⟨_, rfl⟩
  · exact Or.inl ⟨x, List.mem_of_mem_take hx, rfl⟩
  · exact Or.inr rfl

/-- Centered-bounded sampling: every stored coefficient of
`_generate_vector` with bound `B` has centered representative in
`[-B, B]`. -/
theorem generate_vector_centered (xof : Xof) (seed : List Nat) (size : Nat)
    (bound : Int) (domain : Nat) (hb : 0 ≤ bound) (h2b : 2 * bound < Q) :
    ∀ p ∈ generate_vector xof seed size bound domain,
      ∀ v ∈ p.coefficients,
        -bound ≤ Polynomial.centered v ∧ Polynomial.centered v ≤ bound := by
  intro p hp v hv
  simp only [generate_vector, List.mem_map] at hp
  obtain ⟨i, _, rfl⟩ := hp
  rcases mem_init hv with ⟨x, hx, rfl⟩ | rfl
  · have hx2 := List.mem_of_mem_take hx
    have hx3 := List.mem_of_mem_drop hx2
    simp only [List.mem_map] at hx3
    obtain ⟨u, _, rfl⟩ := hx3
    have hu : (0 : Int) ≤ (u : Int) := Int.natCast_nonneg u
    have hm0 : 0 ≤ (u : Int) % (2 * bound + 1) :=
      Int.emod_nonneg _ (by omega)
    have hm1 : (u : Int) % (2 * bound + 1) < 2 * bound + 1 :=
      Int.emod_lt_of_pos _ (by omega)
    set m := (u : Int) % (2 * bound + 1) with hm
    have hxlo : -bound ≤ m - bound := by omega
    have hxhi : m - bound ≤ bound := by omega
    by_cases hs : 0 ≤ m - bound
    · have hlt : m - bound < Q := by omega
      rw [Int.emod_eq_of_lt hs hlt]
      have hcent : Polynomial.centered (m - bound) = m - bound := by
        unfold Polynomial.centered
        rw [if_pos (by omega)]
      rw [hcent]
      exact ⟨hxlo, hxhi⟩
    · have hmod : (m - bound) % Q = m - bound + Q := by
        have h1 : (m - bound) % Q = (m - bound + Q) % Q := by
          conv_rhs => rw [show m - bound + Q = m - bound + Q * 1 by ring]
          rw [Int.add_mul_emod_self_left]
        rw [h1, Int.emod_eq_of_lt (by omega) (by omega)]
      rw [hmod]
      have hcent : Polynomial.centered (m - bound + Q)
          = m - bound := by
        unfold Polynomial.centered
        rw [if_neg (by omega)]
        ring
      rw [hcent]
      exact ⟨hxlo, hxhi⟩
  · have hcent : Polynomial.centered 0 = 0 := by
      unfold Polynomial.centered
      rw [if_pos (by omega)]
    rw [hcent]
    omega

/-! ### The sparse-ternary challenge has exactly the required shape -/

theorem swapL_length (l : List Nat) (i j : Nat) :
    (swapL l i j).length = l.length := by
  simp [swapL]

theorem transp_lt {i j k n : Nat} (hi : i < n) (hj : j < n) (hk : k < n) :
    transp i j k < n := by
  unfold transp
  split_ifs <;> omega

theorem transp_invol (i j k : Nat) : transp i j (transp i j k) = k := by
  unfold transp
  split_ifs <;> omega

theorem transp_inj (i j : Nat) : Function.Injective (transp i j) := by
  intro a b h
  rw [← transp_invol i j a, h, transp_invol]

theorem swapL_getElem? (l : List Nat) (i j k : Nat)
    (hi : i < l.length) (hj : j < l.length) :
    (swapL l i j)[k]? = l[transp i j k]? := by
  unfold swapL transp
  by_cases hkj : k = j
  · subst hkj
    rw [if_pos rfl]
    rw [List.getElem?_set_self (by simpa using hj),
      List.getD_eq_getElem?_getD, List.getElem?_eq_getElem hi]
    rfl
  · rw [if_neg hkj, List.getElem?_set_ne (fun h => hkj h.symm)]
    by_cases hki : k = i
    · subst hki
      rw [if_pos rfl, List.getElem?_set_self hi,
        List.getD_eq_getElem?_getD, List.getElem?_eq_getElem hj]
      rfl
    · rw [if_neg hki, List.getElem?_set_ne (fun h => hki h.symm)]

theorem swapL_nodup {l : List Nat} {i j : Nat}
    (hi : i < l.length) (hj : j < l.length) (h : l.Nodup) :
    (swapL l i j).Nodup := by
  rw [List.nodup_iff_injective_get] at h ⊢
  intro a b hab
  have hla : (a : Nat) < l.length := lt_of_lt_of_eq a.2 (swapL_length l i j)
  have hlb : (b : Nat) < l.length := lt_of_lt_of_eq b.2 (swapL_length l i j)
  have h1 : (swapL l i j)[(a : Nat)]? = (swapL l i j)[(b : Nat)]? := by
    rw [List.getElem?_eq_getElem a.2, List.getElem?_eq_getElem b.2]
    rw [← List.get_eq_getElem, ← List.get_eq_getElem, hab]
  rw [swapL_getElem? l i j _ hi hj, swapL_getElem? l i j _ hi hj] at h1
  have h2 : transp i j (a : Nat) = transp i j (b : Nat) := by
    apply List.getElem?_inj (transp_lt hi hj hla) ?_ h1
    rwa [← List.nodup_iff_injective_get] at h
  have h3 : (a : Nat) = (b : Nat) := transp_inj i j h2
  exact Fin.ext h3

theorem swapL_mem {l : List Nat} {i j : Nat}
    (hi : i < l.length) (hj : j < l.length) :
    ∀ x ∈ swapL l i j, x ∈ l := by
  intro x hx
  rw [List.mem_iff_getElem] at hx
  obtain ⟨k, hk, rfl⟩ := hx
  have h1 : (swapL l i j)[k]? = l[transp i j k]? :=
    swapL_getElem? l i j k hi hj
  rw [List.getElem?_eq_getElem hk] at h1
  exact List.getElem?_mem h1.symm

/-- The Fisher–Yates fold preserves length, distinctness and the range
bound of the position list. -/
theorem shuffle_invariant (stream : Nat → Nat) (ts : List Nat)
    (hts : ∀ t ∈ ts, t < TAU) :
    ∀ l : List Nat, l.length = N → l.Nodup → (∀ x ∈ l, x < N) →
      (ts.foldl (fun positions t =>
          swapL positions t (t + stream t % (N - t))) l).length = N ∧
      (ts.foldl (fun positions t =>
          swapL positions t (t + stream t % (N - t))) l).Nodup ∧
      ∀ x ∈ ts.foldl (fun positions t =>
          swapL positions t (t + stream t % (N - t))) l, x < N := by
  induction ts with
  | nil => intro l h1 h2 h3; exact ⟨h1, h2, h3⟩
  | cons t ts ih =>
    intro l h1 h2 h3
    simp only [List.foldl_cons]
    have htN : t < N := by
      have := hts t (List.mem_cons_self ..)
      have hTN : TAU < N := by decide
      omega
    have hiN : t < l.length := by omega
    have hjN : t + stream t % (N - t) < l.length := by
      have hmod : stream t % (N - t) < N - t := Nat.mod_lt _ (by omega)
      omega
    exact ih (fun x hx => hts x (List.mem_cons_of_mem _ hx)) _
      (by rw [swapL_length]; exact h1)
      (swapL_nodup hiN hjN h2)
      (fun x hx => h3 x (swapL_mem hiN hjN x hx))

/-- The challenge polynomial of the modelled sparse-ternary sampler has
exactly `TAU` nonzero coefficients, each stored as `1` or `Q - 1`
(i.e. `+1` or `-1` mod `q`). -/
theorem sparseTernary_shape (stream : Nat → Nat) :
    ((Finset.range N).filter
      (fun d => (sparseTernary stream).coeff d ≠ 0)).card = TAU ∧
    ∀ v ∈ (sparseTernary stream).coefficients,
      v = 0 ∨ v = 1 ∨ v = Q - 1 := by
  have hinv : (shuffleFY stream).length = N ∧ (shuffleFY stream).Nodup ∧
      ∀ x ∈ shuffleFY stream, x < N := by
    unfold shuffleFY
    exact shuffle_invariant stream (List.range TAU)
      (fun t ht => List.mem_range.mp ht) (List.range N)
      (List.length_range N) (List.nodup_range N)
      (fun x hx => List.mem_range.mp hx)
  obtain ⟨hslen, hsnodup, hsmem⟩ := hinv
  have hchlen : (chosenFY stream).length = TAU := by
    unfold chosenFY
    rw [List.length_take, hslen]
    decide
  have hchnodup : (chosenFY stream).Nodup :=
    (List.take_sublist TAU (shuffleFY stream)).nodup hsnodup
  have hchmem : ∀ x ∈ chosenFY stream, x < N :=
    fun x hx => hsmem x (List.mem_of_mem_take hx)
  have hcoeff : ∀ d, d < N → (sparseTernary stream).coeff d =
      (if d ∈ chosenFY stream then
        (if stream (TAU + (chosenFY stream).indexOf d) % 2 = 0
          then (1 : Int) else -1) else 0) % Q := by
    intro d hd
    unfold sparseTernary
    rw [Polynomial.coeff_init _ _ hd]
    have h2 : ((List.range N).map (fun d =>
        if d ∈ chosenFY stream then
          (if stream (TAU + (chosenFY stream).indexOf d) % 2 = 0
            then (1 : Int) else -1) else 0)).getD d 0
        = (if d ∈ chosenFY stream then
          (if stream (TAU + (chosenFY stream).indexOf d) % 2 = 0
            then (1 : Int) else -1) else 0) := by
      rw [List.getD_eq_getElem?_getD, List.getElem?_map,
        List.getElem?_range hd, Option.map_some', Option.getD_some]
    rw [h2]
  constructor
  · have hfeq : (Finset.range N).filter
        (fun d => (sparseTernary stream).coeff d ≠ 0)
        = (Finset.range N).filter (fun d => d ∈ chosenFY stream) := by
      apply Finset.filter_congr
      intro d hd
      rw [Finset.mem_range] at hd
      rw [hcoeff d hd]
      by_cases hmem : d ∈ chosenFY stream
      · simp only [hmem, if_true, iff_true]
        by_cases hpar :
            stream (TAU + (chosenFY stream).indexOf d) % 2 = 0
        · simp only [hpar, if_true]
          decide
        · simp only [hpar, if_false]
          decide
      · simp only [hmem, if_false]
        simp
    rw [hfeq]
    have hset : (Finset.range N).filter (fun d => d ∈ chosenFY stream)
        = (chosenFY stream).toFinset := by
      apply Finset.ext
      intro x
      simp only [Finset.mem_filter, Finset.mem_range, List.mem_toFinset]
      constructor
      · exact fun h => h.2
      · exact fun h => ⟨hchmem x h, h⟩
    rw [hset, List.toFinset_card_of_nodup hchnodup, hchlen]
  · intro v hv
    unfold sparseTernary at hv
    rcases mem_init hv with ⟨x, hx, rfl⟩ | rfl
    · simp only [List.mem_map] at hx
      obtain ⟨d, _, rfl⟩ := hx
      by_cases hmem : d ∈ chosenFY stream
      · rw [if_pos hmem]
        by_cases hpar :
            stream (TAU + (chosenFY stream).indexOf d) % 2 = 0
        · rw [if_pos hpar]
          right; left; decide
        · rw [if_neg hpar]
          right; right; decide
      · rw [if_neg hmem]
        left; decide
    · left; rfl

/-! ### The concrete ring examples of the spec -/

theorem add_example :
    (Polynomial.init [1, 2]).add (Polynomial.init [3, 4])
      = Polynomial.init [4, 6] := by decide

theorem mul_example :
    (Polynomial.init [1, 2]).mul (Polynomial.init [3, 4])
      = Polynomial.init [3, 10, 8] := by
  apply Polynomial.eq_of_coeff (Polynomial.length_mul _ _)
    (Polynomial.length_init _)
  intro d hd
  rw [Polynomial.mul_coeff _ _ _ hd, Polynomial.coeff_init _ _ hd]
  unfold Polynomial.mulFormula
  have ha : ∀ i, i < N → (Polynomial.init [1, 2]).coeff i =
      (if i = 0 then 1 else if i = 1 then 2 else 0) := by decide
  have houter : ∀ i, i < N → i ≠ 0 → i ≠ 1 →
      ((List.range N).map (fun j => if (i + j) % N = d then
        Polynomial.mulTerm (Polynomial.init [1, 2])
          (Polynomial.init [3, 4]) i j else 0)).sum = 0 := by
    intro i hi hi0 hi1
    apply List.sum_eq_zero
    intro x hx
    simp only [List.mem_map, List.mem_range] at hx
    obtain ⟨j, _, rfl⟩ := hx
    by_cases hc : (i + j) % N = d
    · rw [if_pos hc]
      unfold Polynomial.mulTerm
      rw [ha i hi, if_neg hi0, if_neg hi1]
      ring
    · rw [if_neg hc]
  have hvanish : ∀ i, i < N → ∀ j, j < N → j ≠ 0 → j ≠ 1 →
      (if (i + j) % N = d then
        Polynomial.mulTerm (Polynomial.init [1, 2])
          (Polynomial.init [3, 4]) i j else 0) = 0 := by
    intro i hi j hj hj0 hj1
    have hbj : (Polynomial.init [3, 4]).coeff j = 0 := by
      have hb : ∀ j, j < N → (Polynomial.init [3, 4]).coeff j =
          (if j = 0 then 3 else if j = 1 then 4 else 0) := by decide
      rw [hb j hj, if_neg hj0, if_neg hj1]
    by_cases hc : (i + j) % N = d
    · rw [if_pos hc]
      unfold Polynomial.mulTerm
      rw [hbj]
      ring
    · rw [if_neg hc]
  rw [sum_map_range_eq_pair N 0 1 _ (by decide) (by decide) houter]
  rw [sum_map_range_eq_pair N 0 1 _ (by decide) (by decide)
    (hvanish 0 (by decide))]
  rw [sum_map_range_eq_pair N 0 1 _ (by decide) (by decide)
    (hvanish 1 (by decide))]
  have t00 : Polynomial.mulTerm (Polynomial.init [1, 2])
      (Polynomial.init [3, 4]) 0 0 = 3 := by decide
  have t01 : Polynomial.mulTerm (Polynomial.init [1, 2])
      (Polynomial.init [3, 4]) 0 1 = 4 := by decide
  have t10 : Polynomial.mulTerm (Polynomial.init [1, 2])
      (Polynomial.init [3, 4]) 1 0 = 6 := by decide
  have t11 : Polynomial.mulTerm (Polynomial.init [1, 2])
      (Polynomial.init [3, 4]) 1 1 = 8 := by decide
  rw [t00, t01, t10, t11]
  simp only [show (0 + 0) % N = 0 from by decide,
    show (0 + 1) % N = 1 from by decide,
    show (1 + 0) % N = 1 from by decide,
    show (1 + 1) % N = 2 from by decide]
  by_cases h0 : d = 0
  · subst h0; decide
  by_cases h1 : d = 1
  · subst h1; decide
  by_cases h2 : d = 2
  · subst h2; decide
  rw [if_neg (fun he => h0 he.symm), if_neg (fun he => h1 he.symm),
    if_neg (fun he => h1 he.symm), if_neg (fun he => h2 he.symm)]
  obtain ⟨e, rfl⟩ : ∃ e, d = e + 3 := ⟨d - 3, by omega⟩
  have hgd : ([3, 10, 8] : List Int).getD (e + 3) 0 = 0 := by
    simp [List.getD_eq_getElem?_getD]
  rw [hgd]
  rfl

theorem wrap_example :
    ((Polynomial.init (List.replicate 255 0 ++ [1])).mul
      (Polynomial.init [0, 1])).coeff 0 = Q - 1 := by
  rw [Polynomial.mul_coeff _ _ 0 (by decide)]
  unfold Polynomial.mulFormula
  have ha : ∀ i, i < N →
      (Polynomial.init (List.replicate 255 0 ++ [1])).coeff i =
      (if i = 255 then 1 else 0) := by decide
  have houter : ∀ i, i < N → i ≠ 255 →
      ((List.range N).map (fun j => if (i + j) % N = 0 then
        Polynomial.mulTerm (Polynomial.init (List.replicate 255 0 ++ [1]))
          (Polynomial.init [0, 1]) i j else 0)).sum = 0 := by
    intro i hi hi255
    apply List.sum_eq_zero
    intro x hx
    simp only [List.mem_map, List.mem_range] at hx
    obtain ⟨j, _, rfl⟩ := hx
    by_cases hc : (i + j) % N = 0
    · rw [if_pos hc]
      unfold Polynomial.mulTerm
      rw [ha i hi, if_neg hi255]
      ring
    · rw [if_neg hc]
  have hvanish : ∀ j, j < N → j ≠ 1 →
      (if (255 + j) % N = 0 then
        Polynomial.mulTerm (Polynomial.init (List.replicate 255 0 ++ [1]))
          (Polynomial.init [0, 1]) 255 j else 0) = 0 := by
    intro j hj hj1
    have hbj : (Polynomial.init [0, 1]).coeff j = 0 := by
      have hb : ∀ j, j < N → (Polynomial.init [0, 1]).coeff j =
          (if j = 1 then 1 else 0) := by decide
      rw [hb j hj, if_neg hj1]
    by_cases hc : (255 + j) % N = 0
    · rw [if_pos hc]
      unfold Polynomial.mulTerm
      rw [hbj]
      ring
    · rw [if_neg hc]
  rw [sum_map_range_eq_single N 255 _ (by decide) houter]
  rw [sum_map_range_eq_single N 1 _ (by decide) hvanish]
  decide

/-! ### Evaluation of the concrete scenario -/

theorem matrixC_eq : generate_matrix_from_seed xofC [9] 4 4 = zmat := by
  decide

theorem s1C_eq : generate_vector xofC [1] 4 2 3
    = List.replicate 4 Polynomial.zero := by decide

theorem s2C_eq : generate_vector xofC [2] 4 2 3 = tC := by decide

theorem yC_eq : generate_vector xofC [3] 4 GAMMA1 5
    = List.replicate 4 Polynomial.zero := by decide

theorem yC3_eq : generate_vector xofC [4] 4 GAMMA1 5
    = yBig :: List.replicate 3 Polynomial.zero := by decide

theorem hb0_eq : high_bits Polynomial.zero = hb0 := by decide

theorem unitP_wf : unitP.WF := by decide

theorem cC_wf : cC.WF := by decide

theorem zmat_zero : ∀ row ∈ zmat, ∀ p ∈ row, p = Polynomial.zero := by
  intro row hrow p hp
  rw [List.eq_of_mem_replicate hrow] at hp
  exact List.eq_of_mem_replicate hp

theorem matmul_zmat (v : List Polynomial) :
    matrix_multiply zmat v = List.replicate 4 Polynomial.zero := by
  rw [matrix_multiply_zero zmat v zmat_zero]
  rfl

theorem keygenC_eq : keygen xofC st0 [9] [1] [2] =
    .ok ((([9], tC), (List.replicate 4 Polynomial.zero, tC)), stKey) := by
  simp only [keygen, get_matrix_A, st0, generate_small_vector]
  rw [matrixC_eq]
  simp only [s1C_eq, s2C_eq, matmul_zmat]
  rfl

theorem streamS_eq : xofC (([] ++ ([9] ++ encodeVec tC) ++
    encodeVec (List.replicate 4 hb0)) ++ [DOMAIN_CHALLENGE])
    = fun _ => 0 := by
  funext n
  simp only [xofC]
  rw [if_neg (by decide), if_neg (by decide), if_neg (by decide),
    if_neg (by decide), if_neg (by decide)]

theorem sparse0_eq : sparseTernary (fun _ => 0) = cC := by
  unfold sparseTernary
  simp only [show chosenFY (fun _ => 0) = List.range TAU from by decide]
  decide

theorem challengeS_eq : generate_challenge xofC [] ([9], tC)
    (List.replicate 4 hb0) = cC := by
  simp only [generate_challenge]
  rw [streamS_eq]
  exact sparse0_eq

theorem streamV_eq : xofC (([] ++ ([9] ++ encodeVec tC) ++
    encodeVec (hbNeg :: List.replicate 3 hb0)) ++ [DOMAIN_CHALLENGE])
    = fun _ => 1 := by
  funext n
  simp only [xofC]
  rw [if_neg (by decide), if_neg (by decide), if_neg (by decide),
    if_neg (by decide), if_pos (by decide)]

theorem challengeV_ne : (cC.coefficients ==
    (generate_challenge xofC [] ([9], tC)
      (hbNeg :: List.replicate 3 hb0)).coefficients) = false := by
  simp only [generate_challenge]
  rw [streamV_eq]
  decide

theorem rep4_eq : List.replicate 4 Polynomial.zero =
    [Polynomial.zero, Polynomial.zero, Polynomial.zero, Polynomial.zero] :=
  rfl

theorem zloopC_eq (y : Polynomial) (hy : y.WF) :
    z_loop cC (y :: List.replicate 3 Polynomial.zero)
      (List.replicate 4 Polynomial.zero)
      = .ok (y :: List.replicate 3 Polynomial.zero) := by
  have hmz : cC.mul Polynomial.zero = Polynomial.zero :=
    Polynomial.mul_zero_poly cC
  have haz : Polynomial.zero.add Polynomial.zero = Polynomial.zero := by
    decide
  have hyz : y.add Polynomial.zero = y := Polynomial.add_zero_poly hy
  rw [rep4_eq, show List.replicate 3 Polynomial.zero =
    [Polynomial.zero, Polynomial.zero, Polynomial.zero] from rfl]
  simp only [z_loop, hmz, haz, hyz]

theorem attemptC_eq (yseed : List Nat) (y0 : Polynomial) (hy0 : y0.WF)
    (hy : generate_vector xofC yseed 4 GAMMA1 5
      = y0 :: List.replicate 3 Polynomial.zero)
    (hcheck : ((y0 :: List.replicate 3 Polynomial.zero).map
      Polynomial.coefficients).flatten.any (fun v => Q < |v|) = false) :
    sign_attempt xofC stKey zmat [9] tC (List.replicate 4 Polynomial.zero)
      [] yseed = .ok (some (y0 :: List.replicate 3 Polynomial.zero, cC)) := by
  simp only [sign_attempt, generate_y_vector, stKey, DOMAIN_Y_POLY]
  rw [hy, matmul_zmat]
  have hmap : (List.replicate 4 Polynomial.zero).map high_bits
      = List.replicate 4 hb0 := by
    rw [List.map_replicate, hb0_eq]
  rw [hmap, npConcatenate_ok (by decide)]
  simp only []
  have hcond1 : (((List.replicate 4 hb0).map
      Polynomial.coefficients).flatten.any
      fun v => Q / 3 < |v|) = false := by decide
  simp only [hcond1, Bool.false_eq_true, if_false]
  rw [challengeS_eq, zloopC_eq y0 hy0]
  have hne : (y0 :: List.replicate 3 Polynomial.zero).map
      Polynomial.coefficients ≠ [] := by
    intro hc
    cases hc
  simp only []
  rw [npConcatenate_ok hne]
  simp only [hcheck, Bool.false_eq_true, if_false]

theorem sign_loop_succ (xof : Xof) (st : DilithiumState)
    (A : List (List Polynomial)) (rho : List Nat) (t : List Polynomial)
    (s1 : List Polynomial) (msg : List Nat) (ySeed : Nat → List Nat)
    (fuel attempts : Nat) :
    sign_loop xof st A rho t s1 msg ySeed (fuel + 1) attempts
      = match sign_attempt xof st A rho t s1 msg (ySeed attempts) with
        | .error e => (.error e, attempts + 1)
        | .ok (some sig) => (.ok sig, attempts + 1)
        | .ok none =>
          sign_loop xof st A rho t s1 msg ySeed fuel (attempts + 1) := rfl

theorem sign_loop_attempt_some {xof : Xof} {st : DilithiumState}
    {A : List (List Polynomial)} {rho : List Nat} {t : List Polynomial}
    {s1 : List Polynomial} {msg : List Nat} {ySeed : Nat → List Nat}
    {attempts fuel : Nat} {sig : Sig}
    (h : sign_attempt xof st A rho t s1 msg (ySeed attempts)
      = .ok (some sig)) :
    sign_loop xof st A rho t s1 msg ySeed (fuel + 1) attempts
      = (.ok sig, attempts + 1) := by
  simp only [sign_loop, h]

theorem signC_aux (fuel : Nat) :
    sign_loop xofC stKey zmat [9] tC (List.replicate 4 Polynomial.zero)
      [] (fun _ => [3]) (fuel + 1) 0
    = (.ok (List.replicate 4 Polynomial.zero, cC), 1) :=
  have hatt : sign_attempt xofC stKey zmat [9] tC
      (List.replicate 4 Polynomial.zero) [] ((fun _ : Nat => [3]) 0)
      = .ok (some (List.replicate 4 Polynomial.zero, cC)) :=
    attemptC_eq [3] Polynomial.zero Polynomial.wf_zero
      (by rw [yC_eq]; rfl)
      (by decide)
  sign_loop_attempt_some hatt

theorem signC_eq : sign xofC stKey [] (fun _ => [3]) 1000 =
    ((.ok (List.replicate 4 Polynomial.zero, cC), 1), stKey) := by
  simp only [sign, stKey, get_matrix_A]
  rw [if_pos (by decide)]
  exact congrArg (fun r => (r, stKey)) (signC_aux 999)

/-- Symbolic unfolding of `verify_w1` once the subtraction loop's result
is known. -/
theorem verify_w1_eval {xof : Xof} {k l : Nat} {z : List Polynomial}
    {c : Polynomial} {rho : List Nat} {t w1s : List Polynomial}
    (h : ct_loop c
      (matrix_multiply (generate_matrix_from_seed xof rho k l) z) t
      = .ok w1s) :
    verify_w1 xof k l z c rho t = .ok (w1s.map high_bits) := by
  simp only [verify_w1, h]

/-- Symbolic unfolding of `verify_w1` when the subtraction loop raises. -/
theorem verify_w1_eval_err {xof : Xof} {k l : Nat} {z : List Polynomial}
    {c : Polynomial} {rho : List Nat} {t : List Polynomial} {e : PyErr}
    (h : ct_loop c
      (matrix_multiply (generate_matrix_from_seed xof rho k l) z) t
      = .error e) :
    verify_w1 xof k l z c rho t = .error e := by
  simp only [verify_w1, h]

/-- Symbolic unfolding of `verify` from the results of its stages. -/
theorem verify_eval {xof : Xof} {st : DilithiumState} {msg : List Nat}
    {z : List Polynomial} {c : Polynomial} {rho : List Nat}
    {t : List Polynomial} {zc : List Int} {w1 : List Polynomial}
    {wc : List Int} {b : Bool}
    (h1 : npConcatenate (z.map Polynomial.coefficients) = .ok zc)
    (h2 : (zc.any fun v => Q ≤ |v|) = false)
    (h3 : verify_w1 xof st.k st.l z c rho t = .ok w1)
    (h4 : npConcatenate (w1.map Polynomial.coefficients) = .ok wc)
    (h5 : (wc.any fun v => Q / 3 ≤ |v|) = false)
    (h6 : (c.coefficients ==
      (generate_challenge xof msg (rho, t) w1).coefficients) = b) :
    verify xof st msg (z, c) (rho, t) = (.ok b, st) := by
  simp only [verify, h1, h2, h3, h4, h5, h6, Bool.false_eq_true, if_false]

/-- Symbolic unfolding of `verify` when the reconstruction raises. -/
theorem verify_eval_err {xof : Xof} {st : DilithiumState} {msg : List Nat}
    {z : List Polynomial} {c : Polynomial} {rho : List Nat}
    {t : List Polynomial} {zc : List Int} {e : PyErr}
    (h1 : npConcatenate (z.map Polynomial.coefficients) = .ok zc)
    (h2 : (zc.any fun v => Q ≤ |v|) = false)
    (h3 : verify_w1 xof st.k st.l z c rho t = .error e) :
    verify xof st msg (z, c) (rho, t) = (.error e, st) := by
  simp only [verify, h1, h2, h3, Bool.false_eq_true, if_false]

theorem subz_eq : Polynomial.zero.sub Polynomial.zero = Polynomial.zero := by
  decide

theorem subc_eq : Polynomial.zero.sub cC = negC := by decide

theorem hbNeg_eq : high_bits negC = hbNeg := by decide

theorem ctloopC_eq : ct_loop cC (List.replicate 4 Polynomial.zero) tC
    = .ok (negC :: List.replicate 3 Polynomial.zero) := by
  rw [rep4_eq, show tC = unitP ::
    [Polynomial.zero, Polynomial.zero, Polynomial.zero] from rfl]
  simp only [ct_loop, Polynomial.mul_unitP cC_wf, Polynomial.mul_zero_poly,
    subz_eq, subc_eq]
  rfl

theorem verify_w1C_eq : verify_w1 xofC 4 4
    (List.replicate 4 Polynomial.zero) cC [9] tC
    = .ok (hbNeg :: List.replicate 3 hb0) := by
  have hct : ct_loop cC
      (matrix_multiply (generate_matrix_from_seed xofC [9] 4 4)
        (List.replicate 4 Polynomial.zero)) tC
      = .ok (negC :: List.replicate 3 Polynomial.zero) := by
    rw [matrixC_eq, matmul_zmat]
    exact ctloopC_eq
  have h := verify_w1_eval hct
  rw [h]
  simp only [List.map_cons, List.map_replicate, hbNeg_eq, hb0_eq]

theorem verifyC_eq : verify xofC stKey []
    (List.replicate 4 Polynomial.zero, cC) ([9], tC) = (.ok false, stKey) := by
  refine verify_eval (npConcatenate_ok (by decide)) ?_ verify_w1C_eq
    (npConcatenate_ok (by decide)) ?_ challengeV_ne
  · decide
  · decide

theorem yBig_wf : yBig.WF := by decide

theorem signC3_aux (fuel : Nat) :
    sign_loop xofC stKey zmat [9] tC (List.replicate 4 Polynomial.zero)
      [] (fun _ => [4]) (fuel + 1) 0
    = (.ok (yBig :: List.replicate 3 Polynomial.zero, cC), 1) :=
  have hatt : sign_attempt xofC stKey zmat [9] tC
      (List.replicate 4 Polynomial.zero) [] ((fun _ : Nat => [4]) 0)
      = .ok (some (yBig :: List.replicate 3 Polynomial.zero, cC)) :=
    attemptC_eq [4] yBig yBig_wf (by rw [yC3_eq]) (by decide)
  sign_loop_attempt_some hatt

theorem signC3_eq : sign xofC stKey [] (fun _ => [4]) 1000 =
    ((.ok (yBig :: List.replicate 3 Polynomial.zero, cC), 1), stKey) := by
  simp only [sign, stKey, get_matrix_A]
  rw [if_pos (by decide)]
  exact congrArg (fun r => (r, stKey)) (signC3_aux 999)

theorem verifyC9_eq : verify xofC stKey []
    ([Polynomial.zero], Polynomial.zero) ([9], [])
    = (.error .indexError, stKey) := by
  refine verify_eval_err (npConcatenate_ok (by decide)) (by decide) ?_
  · apply verify_w1_eval_err
    show ct_loop Polynomial.zero
      (matrix_multiply (generate_matrix_from_seed xofC [9] 4 4)
        [Polynomial.zero]) [] = .error .indexError
    rw [matrixC_eq, matmul_zmat, rep4_eq]
    simp only [ct_loop]

/-! ### The double-keygen scenario: the stale matrix cache -/

theorem matrix10_eq : generate_matrix_from_seed xofC5 [10] 4 4 = zmat := by
  decide

theorem matrix20_eq : generate_matrix_from_seed xofC5 [20] 4 4 = m20 := by
  decide

theorem s11_eq : generate_vector xofC5 [11] 4 2 3
    = List.replicate 4 Polynomial.zero := by decide

theorem s12_eq : generate_vector xofC5 [12] 4 2 3
    = List.replicate 4 Polynomial.zero := by decide

theorem s13_eq : generate_vector xofC5 [13] 4 2 3 = s1unit := by decide

theorem s14_eq : generate_vector xofC5 [14] 4 2 3
    = List.replicate 4 Polynomial.zero := by decide

theorem keygen1_eq : keygen xofC5 st0 [10] [11] [12] =
    .ok ((([10], List.replicate 4 Polynomial.zero),
      (List.replicate 4 Polynomial.zero, List.replicate 4 Polynomial.zero)),
      stK1) := by
  simp only [keygen, get_matrix_A, st0, generate_small_vector]
  rw [matrix10_eq]
  simp only [s11_eq, s12_eq, matmul_zmat]
  rfl

theorem keygen2_eq : keygen xofC5 stK1 [20] [13] [14] =
    .ok ((([20], List.replicate 4 Polynomial.zero),
      (s1unit, List.replicate 4 Polynomial.zero)), stK2) := by
  simp only [keygen, get_matrix_A, stK1, generate_small_vector]
  simp only [s13_eq, s14_eq, matmul_zmat]
  rfl

theorem matmul20_eq : matrix_multiply m20 s1unit = tC := by
  have hzrow : ((List.replicate 4 Polynomial.zero).zip s1unit).foldl
      (fun sum_poly av => sum_poly.add (av.1.mul av.2)) Polynomial.zero
      = Polynomial.zero := by
    apply fold_row_zero
    intro pr hpr
    exact List.eq_of_mem_replicate (List.of_mem_zip hpr).1
  have hrow0 : ((unitP :: List.replicate 3 Polynomial.zero).zip
      s1unit).foldl (fun sum_poly av => sum_poly.add (av.1.mul av.2))
      Polynomial.zero = unitP := by
    rw [show (unitP :: List.replicate 3 Polynomial.zero).zip s1unit
      = [(unitP, unitP), (Polynomial.zero, Polynomial.zero),
        (Polynomial.zero, Polynomial.zero),
        (Polynomial.zero, Polynomial.zero)] from rfl]
    simp only [List.foldl_cons, List.foldl_nil,
      Polynomial.mul_unitP unitP_wf, Polynomial.zero_mul_poly,
      Polynomial.zero_add_poly unitP_wf,
      Polynomial.add_zero_poly unitP_wf]
  simp only [matrix_multiply, m20, List.map_cons, List.map_replicate,
    hrow0, hzrow]
  rfl

theorem claimT_eq : (List.range 4).map (fun i =>
    ((matrix_multiply (generate_matrix_from_seed xofC5 [20] 4 4)
      s1unit).getD i Polynomial.zero).add
      ((List.replicate 4 Polynomial.zero).getD i Polynomial.zero))
    = tC := by
  rw [matrix20_eq, matmul20_eq]
  have h0 : unitP.add Polynomial.zero = unitP :=
    Polynomial.add_zero_poly unitP_wf
  have h1 : Polynomial.zero.add Polynomial.zero = Polynomial.zero := by
    decide
  show [(tC.getD 0 Polynomial.zero).add Polynomial.zero,
    (tC.getD 1 Polynomial.zero).add Polynomial.zero,
    (tC.getD 2 Polynomial.zero).add Polynomial.zero,
    (tC.getD 3 Polynomial.zero).add Polynomial.zero] = tC
  rw [show tC.getD 0 Polynomial.zero = unitP from rfl,
    show tC.getD 1 Polynomial.zero = Polynomial.zero from rfl,
    show tC.getD 2 Polynomial.zero = Polynomial.zero from rfl,
    show tC.getD 3 Polynomial.zero = Polynomial.zero from rfl,
    h0, h1]
  rfl

/-! ### The claims -/

/-- C1: the end-to-end correctness claim fails on the code.  For the
concrete keypair `keygen` produces under the oracle `xofC` (message `[]`,
`max_attempts = 1000`), `sign` succeeds, yet `verify` of the produced
signature against the same message and public key returns `false`: the
signature carries no hint data, so the verifier's high-bits commitment
`HighBits(A·z - c·t) = HighBits(w - c·s2)` differs from the signer's
`HighBits(w)` and the recomputed challenge mismatches. -/
theorem C1_roundtrip_false :
    keygen xofC st0 [9] [1] [2] =
      .ok ((([9], tC), (List.replicate 4 Polynomial.zero, tC)), stKey) ∧
    (sign xofC stKey [] (fun _ => [3]) 1000).1
      = (.ok (List.replicate 4 Polynomial.zero, cC), 1) ∧
    verify xofC stKey [] (List.replicate 4 Polynomial.zero, cC) ([9], tC)
      = (.ok false, stKey) :=
  ⟨keygenC_eq, by rw [signC_eq], verifyC_eq⟩

/-- C2: for every XOF, message, public key and high-bits commitment, the
challenge polynomial (spec-modelled `generate_challenge`) has exactly
`TAU = 60` nonzero coefficients, each stored as `1` or `Q - 1` — that is,
exactly `+1` or `-1` mod `q` — and all other coefficients are `0`. -/
theorem C2_challenge_shape (xof : Xof) (message : List Nat)
    (public_key : List Nat × List Polynomial) (w1 : List Polynomial) :
    ((Finset.range N).filter
      (fun d => (generate_challenge xof message public_key w1).coeff d
        ≠ 0)).card = TAU ∧
    ∀ v ∈ (generate_challenge xof message public_key w1).coefficients,
      v = 0 ∨ v = 1 ∨ v = Q - 1 :=
  sparseTernary_shape _

/-- C3 counterexample: under the oracle `xofC` with masking seed `[4]`,
`sign` returns — without restarting — a signature whose `z` has first
coefficient 1900000, strictly above `GAMMA1 - BETA = 1833216` (its
centered representative is 1900000 as well), refuting the claimed
`[-(GAMMA1-BETA), GAMMA1-BETA]` bound on returned signatures. -/
theorem C3_counterexample :
    (sign xofC stKey [] (fun _ => [4]) 1000).1
      = (.ok (yBig :: List.replicate 3 Polynomial.zero, cC), 1) ∧
    GAMMA1 - BETA < Polynomial.centered (yBig.coeff 0) :=
  ⟨by rw [signC3_eq], by decide⟩

/-- C3 amended: the code checks `z` only against the loose bound `Q`
(`sign` restarts on `|z| > Q`, `verify` rejects on `|z| ≥ Q`): every
signature `sign` returns has its `z` stored coefficients in `[0, Q)`
(not necessarily within `GAMMA1 - BETA`), and `verify`'s `z`-bound check
never fires on a signature whose polynomials are well-formed. -/
theorem C3_z_bounds_amended (xof : Xof) (st : DilithiumState)
    (msg : List Nat) (ySeed : Nat → List Nat) (ma n : Nat)
    (z : List Polynomial) (c : Polynomial) (st2 : DilithiumState)
    (h : sign xof st msg ySeed ma = ((.ok (z, c), n), st2)) :
    (∀ p ∈ z, ∀ v ∈ p.coefficients, 0 ≤ v ∧ v < Q) ∧
    ((z.map Polynomial.coefficients).flatten.any fun v => Q ≤ |v|)
      = false := by
  have hwf : ∀ p ∈ z, p.WF := by
    simp only [sign] at h
    by_cases hc : (truthy st.rho && truthy st.t && truthy st.s1 &&
        truthy st.s2) = true
    · simp only [hc, if_true] at h
      cases hg : get_matrix_A xof st with
      | error e =>
        rw [hg] at h
        simp only [] at h
        simp at h
      | ok p =>
        obtain ⟨A, st3⟩ := p
        rw [hg] at h
        simp only [] at h
        have h1 : (sign_loop xof st3 A (st.rho.getD []) (st.t.getD [])
            (st.s1.getD []) msg ySeed ma 0).1 = .ok (z, c) := by
          have := congrArg (fun x => x.1.1) h
          simpa using this
        exact sign_loop_ok_wf h1
    · rw [Bool.not_eq_true] at hc
      simp only [hc, Bool.false_eq_true, if_false] at h
      simp at h
  constructor
  · exact fun p hp v hv => (hwf p hp).2 v hv
  · apply any_Q_le_abs_eq_false
    intro v hv
    rw [List.mem_flatten] at hv
    obtain ⟨l, hl, hvl⟩ := hv
    rw [List.mem_map] at hl
    obtain ⟨p, hp, rfl⟩ := hl
    exact (hwf p hp).2 v hvl

/-- Witness for the amended C3, at the concrete signing run of the
scenario. -/
theorem C3_witness :
    (∀ p ∈ (List.replicate 4 Polynomial.zero : List Polynomial),
      ∀ v ∈ p.coefficients, 0 ≤ v ∧ v < Q) ∧
    (((List.replicate 4 Polynomial.zero : List Polynomial).map
      Polynomial.coefficients).flatten.any fun v => Q ≤ |v|) = false :=
  C3_z_bounds_amended xofC stKey [] (fun _ => [3]) 1000 1
    (List.replicate 4 Polynomial.zero) cC stKey signC_eq

/-- C4 counterexample: in the concrete scenario the signature is the
bare pair `(z, c)` with no hint component, and the verifier's hint-free
reconstruction `HighBits(A·z - c·t)` does not match the commitment
`HighBits(A·y)` the signer derived the challenge from: the first poly is
`hbNeg` (1150 at positions 0..59) instead of `hb0` (all 127). -/
theorem C4_counterexample :
    (sign xofC stKey [] (fun _ => [3]) 1000).1.1
      = .ok (List.replicate 4 Polynomial.zero, cC) ∧
    verify_w1 xofC 4 4 (List.replicate 4 Polynomial.zero) cC [9] tC
      = .ok (hbNeg :: List.replicate 3 hb0) ∧
    (matrix_multiply zmat (List.replicate 4 Polynomial.zero)).map high_bits
      = List.replicate 4 hb0 ∧
    hbNeg :: List.replicate 3 hb0 ≠ List.replicate 4 hb0 :=
  ⟨by rw [signC_eq], verify_w1C_eq,
    by rw [matmul_zmat, List.map_replicate, hb0_eq], by decide⟩

/-- C4 amended: signatures consist of `z` and `c` only; `verify`
recomputes `w1' = HighBits(A·z - c·t)` with no hint correction (so `w1'`
need not match the signer's commitment) and accepts exactly when the
challenge recomputed from `w1'` equals `c` coefficient-wise. -/
theorem C4_no_hints_amended (xof : Xof) (st : DilithiumState)
    (msg : List Nat) (z : List Polynomial) (c : Polynomial)
    (rho : List Nat) (t w1 : List Polynomial)
    (hznil : z ≠ [])
    (hz : ((z.map Polynomial.coefficients).flatten.any
      fun v => Q ≤ |v|) = false)
    (hw : verify_w1 xof st.k st.l z c rho t = .ok w1)
    (hwnil : w1 ≠ [])
    (hwc : ((w1.map Polynomial.coefficients).flatten.any
      fun v => Q / 3 ≤ |v|) = false) :
    verify xof st msg (z, c) (rho, t)
      = (.ok (c.coefficients ==
          (generate_challenge xof msg (rho, t) w1).coefficients), st) :=
  verify_eval
    (npConcatenate_ok (by simpa [List.map_eq_nil_iff] using hznil)) hz hw
    (npConcatenate_ok (by simpa [List.map_eq_nil_iff] using hwnil)) hwc
    rfl

/-- Witness for the amended C4, at the concrete scenario. -/
theorem C4_witness :
    verify xofC stKey [] (List.replicate 4 Polynomial.zero, cC) ([9], tC)
      = (.ok (cC.coefficients ==
          (generate_challenge xofC [] ([9], tC)
            (hbNeg :: List.replicate 3 hb0)).coefficients), stKey) :=
  C4_no_hints_amended xofC stKey [] (List.replicate 4 Polynomial.zero) cC
    [9] tC (hbNeg :: List.replicate 3 hb0) (by decide) (by decide)
    verify_w1C_eq (by decide) (by decide)

/-- C5: the invariant `t = A·s1 + s2` with `A = Matrix(rho)` fails for a
second `keygen` on the same instance: the `functools.lru_cache` wrapper
on `get_matrix_A` replays the first call's matrix although `keygen`
stored a fresh `rho` and reset `_A_cache`.  Concretely, the second
keypair has `rho = [20]` and `t = 0`, while
`Matrix([20])·s1 + s2 = (1, 0, 0, 0) ≠ 0`. -/
theorem C5_cache_bug :
    keygen xofC5 st0 [10] [11] [12] =
      .ok ((([10], List.replicate 4 Polynomial.zero),
        (List.replicate 4 Polynomial.zero,
          List.replicate 4 Polynomial.zero)), stK1) ∧
    keygen xofC5 stK1 [20] [13] [14] =
      .ok ((([20], List.replicate 4 Polynomial.zero),
        (s1unit, List.replicate 4 Polynomial.zero)), stK2) ∧
    (List.range 4).map (fun i =>
      ((matrix_multiply (generate_matrix_from_seed xofC5 [20] 4 4)
        s1unit).getD i Polynomial.zero).add
        ((List.replicate 4 Polynomial.zero).getD i Polynomial.zero)) = tC ∧
    tC ≠ List.replicate 4 Polynomial.zero :=
  ⟨keygen1_eq, keygen2_eq, claimT_eq, by decide⟩

/-- C6: every coefficient produced by centered-bounded sampling with
bound `B` (for any bound with `0 ≤ B` and `2B < Q`) has centered
representative in `[-B, B]`; in particular the secret vectors drawn by
`generate_small_vector` (as `keygen` stores into `s1`, `s2`) lie in
`[-eta, eta]` and the masking vector of `generate_y_vector` lies in
`[-GAMMA1, GAMMA1]`. -/
theorem C6_centered_bounds (xof : Xof) (seed : List Nat) (size : Nat)
    (bound : Int) (domain : Nat) (st : DilithiumState)
    (hb : 0 ≤ bound) (h2b : 2 * bound < Q) (heta : 0 ≤ st.eta)
    (h2eta : 2 * st.eta < Q) :
    (∀ p ∈ generate_vector xof seed size bound domain,
      ∀ v ∈ p.coefficients,
        -bound ≤ Polynomial.centered v ∧ Polynomial.centered v ≤ bound) ∧
    (∀ p ∈ generate_small_vector xof seed st size,
      ∀ v ∈ p.coefficients,
        -st.eta ≤ Polynomial.centered v ∧
          Polynomial.centered v ≤ st.eta) ∧
    (∀ p ∈ generate_y_vector xof seed st, ∀ v ∈ p.coefficients,
      -GAMMA1 ≤ Polynomial.centered v ∧ Polynomial.centered v ≤ GAMMA1) :=
  ⟨generate_vector_centered xof seed size bound domain hb h2b,
    generate_vector_centered xof seed size st.eta DOMAIN_SMALL_POLY heta h2eta,
    generate_vector_centered xof seed st.l GAMMA1 DOMAIN_Y_POLY
      (by decide) (by decide)⟩

/-- Witness for C6, at a concrete XOF, seed, size and bound. -/
theorem C6_witness :
    (∀ p ∈ generate_vector (fun _ _ => 0) [] 1 2 3,
      ∀ v ∈ p.coefficients,
        -2 ≤ Polynomial.centered v ∧ Polynomial.centered v ≤ 2) ∧
    (∀ p ∈ generate_small_vector (fun _ _ => 0) [] st0 1,
      ∀ v ∈ p.coefficients,
        -st0.eta ≤ Polynomial.centered v ∧
          Polynomial.centered v ≤ st0.eta) ∧
    (∀ p ∈ generate_y_vector (fun _ _ => 0) [] st0, ∀ v ∈ p.coefficients,
      -GAMMA1 ≤ Polynomial.centered v ∧ Polynomial.centered v ≤ GAMMA1) :=
  C6_centered_bounds (fun _ _ => 0) [] 1 2 3 st0
    (by decide) (by decide) (by decide) (by decide)

/-- C7: ring multiplication is the negacyclic convolution — for all `a`,
`b` and every degree `d < N`, the product's coefficient at `d` is
`Σ over i + j ≡ d (mod N) of a_i·b_j`, negated when `i + j ≥ N`, reduced
mod `q` — and the spec's concrete examples hold:
`[1,2] + [3,4] = [4,6]`, `[1,2] * [3,4] = [3,10,8]`, and the basis
element at degree `N - 1` times `X` gives `q - 1` at degree 0. -/
theorem C7_negacyclic_convolution :
    (∀ a b : Polynomial, ∀ d, d < N →
      (a.mul b).coeff d = Polynomial.mulFormula a b d) ∧
    (Polynomial.init [1, 2]).add (Polynomial.init [3, 4])
      = Polynomial.init [4, 6] ∧
    (Polynomial.init [1, 2]).mul (Polynomial.init [3, 4])
      = Polynomial.init [3, 10, 8] ∧
    ((Polynomial.init (List.replicate 255 0 ++ [1])).mul
      (Polynomial.init [0, 1])).coeff 0 = Q - 1 :=
  ⟨fun a b d hd => Polynomial.mul_coeff a b d hd,
    add_example, mul_example, wrap_example⟩

/-- C8: the signing loop is bounded — `sign` performs at most
`max_attempts` attempts, and its result is either a signature or the
surfaced exhaustion error (`RuntimeError`); with `max_attempts = 0` (no
attempt can succeed) it reliably yields the error rather than looping or
returning a signature. -/
theorem C8_sign_bounded (xof : Xof) (st : DilithiumState)
    (msg : List Nat) (ySeed : Nat → List Nat) (max_attempts : Nat)
    (hkeys : (truthy st.rho && truthy st.t && truthy st.s1 &&
      truthy st.s2) = true)
    (hk : 1 ≤ st.k) (hl : 1 ≤ st.l)
    (hs1 : st.l ≤ (st.s1.getD []).length)
    (hlru : ∀ A ∈ st.lruA, 1 ≤ A.length)
    (hac : ∀ A ∈ st.Acache, 1 ≤ A.length) :
    (sign xof st msg ySeed max_attempts).1.2 ≤ max_attempts ∧
    ((sign xof st msg ySeed max_attempts).1.1 = .error .runtimeError ∨
      ∃ s, (sign xof st msg ySeed max_attempts).1.1 = .ok s) ∧
    (max_attempts = 0 →
      (sign xof st msg ySeed max_attempts).1.1
        = .error .runtimeError) := by
  have hrho : truthy st.rho = true := by
    simp only [Bool.and_eq_true] at hkeys
    exact hkeys.1.1.1
  obtain ⟨A, st2, hg, hA, hk2, hl2, _, _, hs12, _⟩ :=
    get_matrix_A_spec xof st hrho hk hlru hac
  have hattempt : ∀ seed, ∃ o, sign_attempt xof st2 A (st.rho.getD [])
      (st.t.getD []) (st.s1.getD []) msg seed = .ok o := by
    intro seed
    exact sign_attempt_ok xof st2 A (st.rho.getD []) (st.t.getD [])
      (st.s1.getD []) msg seed hA (hl2 ▸ hl) (hl2 ▸ hs1)
  obtain ⟨hle, hres⟩ := sign_loop_spec xof st2 A (st.rho.getD [])
    (st.t.getD []) (st.s1.getD []) msg ySeed hattempt max_attempts 0
  simp only [sign, hkeys, if_true, hg]
  refine ⟨by simpa using hle, by simpa using hres, ?_⟩
  intro h0
  subst h0
  rfl

/-- Witness for C8, at a concrete state with nonempty key material. -/
theorem C8_witness :
    (sign (fun _ _ => 0) stW [] (fun _ => []) 0).1.2 ≤ 0 ∧
    ((sign (fun _ _ => 0) stW [] (fun _ => []) 0).1.1
        = .error .runtimeError ∨
      ∃ s, (sign (fun _ _ => 0) stW [] (fun _ => []) 0).1.1 = .ok s) ∧
    (0 = 0 →
      (sign (fun _ _ => 0) stW [] (fun _ => []) 0).1.1
        = .error .runtimeError) :=
  C8_sign_bounded (fun _ _ => 0) stW [] (fun _ => []) 0 (by decide)
    (by decide) (by decide) (by decide)
    (by intro A h; simp [stW] at h) (by intro A h; simp [stW] at h)

/-- C9 counterexample: a malformed-but-well-typed input — a public key
whose `t` has fewer than `k` polynomials — makes `verify` raise
`IndexError` (from `t[i]` inside the `c·t` loop) instead of returning
`false`. -/
theorem C9_counterexample :
    verify xofC stKey [] ([Polynomial.zero], Polynomial.zero) ([9], []) =
      (.error .indexError, stKey) :=
  verifyC9_eq

/-- C9 amended: `verify` never mutates the instance state (it returns the
state unchanged) and returns a boolean rather than raising, provided `z`
is non-empty and the public `t` has at least `k` polynomials; with fewer
than `k` polynomials in `t` an `IndexError` escapes. -/
theorem C9_verify_total_amended (xof : Xof) (st : DilithiumState)
    (msg : List Nat) (sig : Sig) (pk : List Nat × List Polynomial)
    (hz : sig.1 ≠ []) (ht : st.k ≤ pk.2.length) (hk : 1 ≤ st.k) :
    ∃ b, verify xof st msg sig pk = (.ok b, st) :=
  verify_no_raise xof st msg sig pk hz ht hk

/-- Witness for the amended C9, at a concrete well-formed input. -/
theorem C9_witness :
    ∃ b, verify xofC stKey [] ([Polynomial.zero], Polynomial.zero)
      ([9], List.replicate 4 Polynomial.zero) = (.ok b, stKey) :=
  C9_verify_total_amended xofC stKey []
    ([Polynomial.zero], Polynomial.zero)
    ([9], List.replicate 4 Polynomial.zero)
    (by decide) (by decide) (by decide)

/-- C10: for every integer list `cs`, the `Polynomial` constructor stores
exactly `N = 256` coefficients — the first `N` entries of `cs` reduced
mod `q` (truncating longer inputs), zero-padded past `cs.length` — and
every stored coefficient lies in `[0, q)`, so negative inputs are stored
as their nonnegative residue and no polynomial holds a centered
representation. -/
theorem C10_init_normalises (cs : List Int) :
    (Polynomial.init cs).coefficients.length = N ∧
    (∀ i, i < N → (Polynomial.init cs).coeff i = cs.getD i 0 % Q) ∧
    (∀ i, cs.length ≤ i → i < N → (Polynomial.init cs).coeff i = 0) ∧
    (∀ v ∈ (Polynomial.init cs).coefficients, 0 ≤ v ∧ v < Q) := by
  refine ⟨Polynomial.length_init cs, Polynomial.coeff_init cs, ?_,
    fun v hv => (Polynomial.wf_init cs).2 v hv⟩
  intro i hi hiN
  rw [Polynomial.coeff_init cs i hiN, List.getD_eq_getElem?_getD,
    List.getElem?_eq_none hi]
  rfl

end Dilithium
